import Mathlib

/-!
Verification of the LycheeFS core (lycheefs.py): a FUSE filesystem exposing a
Lychee photo server as a virtual file tree.  We shallowly embed the data model
(quality tiers, albums, photos, the path index built by the recursive crawl)
and the four filesystem operations (getattr, readdir, open, read), and prove
the specified properties about them.

Python strings are modelled as `List Char`; byte strings as `List Nat`;
dictionaries as insertion sequences with last-write-wins lookup; raised
exceptions and returned errno codes are both modelled by an error type,
with a dedicated constructor for the raised KeyError so the two failure
modes stay distinguishable.
-/

/-! ### Path handling: faithful ports of posixpath.normpath and os.path.join -/

/-- Python `str.split('/')` on a character list: splits at every separator and
keeps empty pieces, so the result is always non-empty. -/
def splitSlash : List Char → List (List Char)
  | [] => [[]]
  | '/' :: rest => [] :: splitSlash rest
  | c :: rest =>
    match splitSlash rest with
    | [] => [[c]]
    | h :: t => (c :: h) :: t

/-- Python `'/'.join(comps)`. -/
def sepJoin : List (List Char) → List Char
  | [] => []
  | [c] => c
  | c :: rest => c ++ '/' :: sepJoin rest

/-- The component-processing loop of `posixpath.normpath`: drops empty and `.`
components and resolves `..` against the accumulated prefix. -/
def normLoop (slashes : Nat) : List (List Char) → List (List Char) → List (List Char)
  | acc, [] => acc
  | acc, comp :: rest =>
    if comp = [] ∨ comp = ['.'] then normLoop slashes acc rest
    else if comp ≠ ['.', '.'] ∨ (slashes = 0 ∧ acc = []) ∨
        (acc ≠ [] ∧ acc.getLastD [] = ['.', '.']) then
      normLoop slashes (acc ++ [comp]) rest
    else if acc ≠ [] then normLoop slashes acc.dropLast rest
    else normLoop slashes acc rest

/-- `posixpath.normpath` ported to character lists (used by
`LycheeFS._join_path` on both arguments). -/
def normpath (p : List Char) : List Char :=
  if p = [] then ['.']
  else
    let slashes : Nat :=
      if p.take 1 = ['/'] then
        if p.take 2 = ['/', '/'] ∧ ¬ p.take 3 = ['/', '/', '/'] then 2 else 1
      else 0
    let comps := normLoop slashes [] (splitSlash p)
    let joined := List.replicate slashes '/' ++ sepJoin comps
    if joined = [] then ['.'] else joined

/-- Two-argument `posixpath.join`. -/
def joinPath (a b : List Char) : List Char :=
  if b.take 1 = ['/'] then b
  else if a = [] ∨ a.getLast? = some '/' then a ++ b
  else a ++ '/' :: b

/-- `LycheeFS._join_path`: join a path and a filename, normalizing the two
components independently before joining. -/
def joinNorm (base filename : List Char) : List Char :=
  joinPath (normpath base) (normpath filename)

/-- Absolute path made of the given components: `/` for `[]`, `/a/b` for
`[a, b]`.  Agrees with how the crawl builds paths from well-behaved titles. -/
def pathOfComps (cs : List (List Char)) : List Char :=
  '/' :: sepJoin cs

/-- A title that is a plain single path component: non-empty, without a
separator, and not one of the special components `.` and `..`.  Such titles
are fixed points of `normpath` and joining them appends one component. -/
def goodTitle (t : List Char) : Prop :=
  t ≠ [] ∧ '/' ∉ t ∧ t ≠ ['.'] ∧ t ≠ ['.', '.']

instance (t : List Char) : Decidable (goodTitle t) := by
  unfold goodTitle; infer_instance

/-- The proper ancestor prefixes of an absolute path, as the claim language
uses them: for `/a/b` these are `/` and `/a`; a relative path has none. -/
def properAncestors (p : List Char) : List (List Char) :=
  match splitSlash p with
  | [] => []
  | c :: comps =>
    if c = [] then
      ((List.range comps.length).map (fun i => pathOfComps (comps.take i))).filter
        (fun a => a ≠ p)
    else []

/-! ### Quality tiers (class LycheeQuality) -/

/-- The seven quality tiers, ordered from lowest to highest exactly as the
`LycheeQuality` enum declares them (values 0..6). -/
inductive LycheeQuality where
  | THUMB | THUMB2X | SMALL | SMALL2X | MEDIUM | MEDIUM2X | FULL
deriving DecidableEq, Repr, Fintype

/-- The enum member's `value`. -/
def LycheeQuality.val : LycheeQuality → Nat
  | .THUMB => 0
  | .THUMB2X => 1
  | .SMALL => 2
  | .SMALL2X => 3
  | .MEDIUM => 4
  | .MEDIUM2X => 5
  | .FULL => 6

/-- The enum constructor `LycheeQuality(value)`; only applied to values 0..6
in the source (out-of-range arguments would raise, and never occur). -/
def LycheeQuality.ofVal : Nat → LycheeQuality
  | 0 => .THUMB
  | 1 => .THUMB2X
  | 2 => .SMALL
  | 3 => .SMALL2X
  | 4 => .MEDIUM
  | 5 => .MEDIUM2X
  | _ => .FULL

/-- `LycheeQuality.next`: the closest upper quality. -/
def LycheeQuality.next (q : LycheeQuality) : LycheeQuality :=
  if q.val = 6 then LycheeQuality.ofVal q.val else LycheeQuality.ofVal (q.val + 1)

/-- `LycheeQuality.prev`: the closest lower quality. -/
def LycheeQuality.prev (q : LycheeQuality) : LycheeQuality :=
  if q.val = 0 then LycheeQuality.ofVal q.val else LycheeQuality.ofVal (q.val - 1)

/-- Iteration order of the enum (`for res in LycheeQuality`). -/
def qualityList : List LycheeQuality :=
  [.THUMB, .THUMB2X, .SMALL, .SMALL2X, .MEDIUM, .MEDIUM2X, .FULL]

/-- The `res_avail` list built by the quality setter: the tiers whose size
variant carries a URL, in enum order.  The per-photo availability check
`sizeVariants.get(res.name.lower()) != None` is modelled by the boolean
function `variants`. -/
def resAvail (variants : LycheeQuality → Bool) : List LycheeQuality :=
  qualityList.filter variants

/-- The `while` loop of the quality setter, as a step-indexed function: the
loop advances `quality` by one tier per iteration and `6 - value` steps always
suffice (at value 6 the loop guard is false), so running it with that step
budget is exactly the source loop. -/
def resolveSteps (variants : LycheeQuality → Bool) : Nat → LycheeQuality → LycheeQuality
  | 0, q => q
  | n + 1, q =>
    if q ≠ LycheeQuality.FULL ∧ q ∉ resAvail variants then
      resolveSteps variants n q.next
    else q

/-- The quality setter (`LycheeImage.quality`): starting from the requested
tier, try increasing quality until available or original size.  (The early
assignment for a FULL request at the top of the setter is dead: the code does
not return there and the loop epilogue overwrites `_quality` with the same
name.) -/
def qualitySet (value : LycheeQuality) (variants : LycheeQuality → Bool) : LycheeQuality :=
  resolveSteps variants (6 - value.val) value

/-- The name of a quality tier, as a character list. -/
def qualityName : LycheeQuality → List Char
  | .THUMB => ['T', 'H', 'U', 'M', 'B']
  | .THUMB2X => ['T', 'H', 'U', 'M', 'B', '2', 'X']
  | .SMALL => ['S', 'M', 'A', 'L', 'L']
  | .SMALL2X => ['S', 'M', 'A', 'L', 'L', '2', 'X']
  | .MEDIUM => ['M', 'E', 'D', 'I', 'U', 'M']
  | .MEDIUM2X => ['M', 'E', 'D', 'I', 'U', 'M', '2', 'X']
  | .FULL => ['F', 'U', 'L', 'L']

/-- `LycheeQuality[name]` lookup, `none` modelling the raised KeyError. -/
def qualityOfName (s : List Char) : Option LycheeQuality :=
  qualityList.find? (fun q => qualityName q = s)

/-- The quality setter on a raw configured name, as `LycheeImage.__init__`
invokes it: the `LycheeQuality[value]` lookup raises (`none`) on an unknown
name before any resolution happens. -/
def qualitySetName (name : List Char) (variants : LycheeQuality → Bool) :
    Option LycheeQuality :=
  match qualityOfName name with
  | none => none
  | some q => some (qualitySet q variants)

/-! ### Data model: stat structures, JSON inputs, entities -/

/-- The stat-like object built by the `stats` setter of `LycheeElement`.
`st_ctime`/`st_mtime` are the timestamps of the parsed `created_at` and
`updated_at` JSON dates (the datetime parsing of the collaborator is
abstracted to the timestamps themselves); `st_atime` is the time of
construction. -/
structure Stats where
  st_mode : Nat
  st_uid : Nat
  st_gid : Nat
  st_nlink : Nat
  st_size : Nat
  st_ctime : Int
  st_mtime : Int
  st_atime : Int
deriving DecidableEq, Repr

/-- `stat.S_IFDIR`. -/
def S_IFDIR : Nat := 16384

/-- `stat.S_IFREG`. -/
def S_IFREG : Nat := 32768

/-- The `stats` setter shared by albums and photos: permissions start unset
(`fuse.Stat()` zeroes `st_mode`; the concrete subclass fills it in), size is
the JSON `filesize` with the 4096 album default. -/
def mkStats (uid gid : Nat) (now : Int) (filesize : Option Nat)
    (createdAt updatedAt : Int) : Stats :=
  { st_mode := 0
    st_uid := uid
    st_gid := gid
    st_nlink := 1
    st_size := filesize.getD 4096
    st_ctime := createdAt
    st_mtime := updatedAt
    st_atime := now }

/-- Photo JSON as delivered inside an `Album::get` response: the fields the
core reads.  `sizeVariants` tells, per quality tier, whether a URL for that
variant exists (`sizeVariants.get(name) != None`). -/
structure PhotoJson where
  id : Int
  title : List Char
  type : Option (List Char)
  filesize : Option Nat
  createdAt : Int
  updatedAt : Int
  sizeVariants : LycheeQuality → Bool

/-- Album JSON: identity and timestamps plus the nested `albums` and `photos`
lists of its `Album::get` response (the crawl fetches exactly these). -/
inductive AlbumJson : Type where
  | mk (id : Int) (title : List Char) (createdAt updatedAt : Int)
      (subalbums : List AlbumJson) (photos : List PhotoJson) : AlbumJson

def AlbumJson.id : AlbumJson → Int
  | .mk i _ _ _ _ _ => i

def AlbumJson.title : AlbumJson → List Char
  | .mk _ t _ _ _ _ => t

def AlbumJson.createdAt : AlbumJson → Int
  | .mk _ _ c _ _ _ => c

def AlbumJson.updatedAt : AlbumJson → Int
  | .mk _ _ _ u _ _ => u

def AlbumJson.subalbums : AlbumJson → List AlbumJson
  | .mk _ _ _ _ s _ => s

def AlbumJson.photos : AlbumJson → List PhotoJson
  | .mk _ _ _ _ _ p => p

/-- The `title` property of `LycheeElement`: when the JSON carries a MIME
`type`, the last slash-component of the type is appended as an extension. -/
def elementTitle (title : List Char) (ty : Option (List Char)) : List Char :=
  match ty with
  | none => title
  | some t => title ++ '.' :: (splitSlash t).getLastD []

/-- The displayed file name of a photo (its JSON title plus extension). -/
def photoTitle (e : PhotoJson) : List Char :=
  elementTitle e.title e.type

/-- Ambient construction context: the (validated) configured quality and the
environment values the stat setter reads (`os.getuid()`, `os.getgid()`,
`datetime.now()`). -/
structure Ctx where
  quality : LycheeQuality
  uid : Nat
  gid : Nat
  now : Int

/-- The in-memory photo object (`LycheeImage`) after construction: descriptor
fields, the resolved quality, and the lazily filled content buffer. -/
structure ImageData where
  id : Int
  title : List Char
  stats : Stats
  quality : LycheeQuality
  content : List Nat
deriving DecidableEq, Repr

/-- The in-memory album object (`LycheeAlbum`): descriptor fields plus the
ordered list of child paths recorded during the crawl. -/
structure AlbumData where
  id : Int
  title : List Char
  stats : Stats
  childrenPath : List (List Char)
deriving DecidableEq, Repr

/-- An entry of the path index `self.objects`. -/
inductive Entity where
  | album (a : AlbumData)
  | image (i : ImageData)
deriving DecidableEq, Repr

def Entity.title : Entity → List Char
  | .album a => a.title
  | .image i => i.title

def Entity.stats : Entity → Stats
  | .album a => a.stats
  | .image i => i.stats

def Entity.isAlbum : Entity → Bool
  | .album _ => true
  | .image _ => false

/-- `LycheeImage.__init__` with an already validated quality name: resolve
the quality against the photo's available variants, set regular-file mode
bits, and leave the content buffer empty (no download at construction). -/
def mkImage (ctx : Ctx) (e : PhotoJson) : ImageData :=
  { id := e.id
    title := photoTitle e
    stats := { mkStats ctx.uid ctx.gid ctx.now e.filesize e.createdAt e.updatedAt with
                 st_mode := S_IFREG + 292 }
    quality := qualitySet ctx.quality e.sizeVariants
    content := [] }

/-- `LycheeImage.__init__` on a raw configured quality name: constructing the
photo fails (KeyError propagated as `none`) when the name is unknown, because
the quality setter looks the name up first. -/
def mkImageNamed (uid gid : Nat) (now : Int) (name : List Char) (e : PhotoJson) :
    Option ImageData :=
  match qualitySetName name e.sizeVariants with
  | none => none
  | some q =>
    some
      { id := e.id
        title := photoTitle e
        stats := { mkStats uid gid now e.filesize e.createdAt e.updatedAt with
                     st_mode := S_IFREG + 292 }
        quality := q
        content := [] }

/-- The child paths an album records while being crawled: one joined path per
subalbum (in order), then one per photo (in order). -/
def childrenPaths (a : AlbumJson) (path : List Char) : List (List Char) :=
  a.subalbums.map (fun e => joinNorm path e.title) ++
    a.photos.map (fun e => joinNorm path (photoTitle e))

/-- `LycheeAlbum` as registered by the crawl at `path`: directory mode bits
and the recorded child paths. -/
def mkAlbumData (ctx : Ctx) (a : AlbumJson) (path : List Char) : AlbumData :=
  { id := a.id
    title := a.title
    stats := { mkStats ctx.uid ctx.gid ctx.now none a.createdAt a.updatedAt with
                 st_mode := S_IFDIR + 493 }
    childrenPath := childrenPaths a path }

/-! ### The crawl (`LycheeFS._fetch_album_structure`) -/

mutual
/-- The recursive crawl of one album: the sequence of `self.objects[...] = ...`
insertions it performs, in execution order — each subalbum's subtree first
(each subtree ending with that subalbum itself), then the album's photos,
and finally the album under its own path.  For the synthetic root the
prebuilt top-level album list plays the role of `subalbums` and the photo
list is empty. -/
def crawlAlbum (ctx : Ctx) : AlbumJson → List Char → List (List Char × Entity)
  | AlbumJson.mk i t c u subs photos, path =>
    crawlSubs ctx subs path ++
      photos.map (fun e => (joinNorm path (photoTitle e), Entity.image (mkImage ctx e))) ++
      [(path, Entity.album (mkAlbumData ctx (AlbumJson.mk i t c u subs photos) path))]

/-- The subalbum loop of the crawl. -/
def crawlSubs (ctx : Ctx) : List AlbumJson → List Char → List (List Char × Entity)
  | [], _ => []
  | e :: rest, path => crawlAlbum ctx e (joinNorm path e.title) ++ crawlSubs ctx rest path
end

/-- Final state of the `self.objects` dictionary after a sequence of
insertions: the value written by the last insertion with the given key. -/
def finalLookup (ins : List (List Char × Entity)) (k : List Char) : Option Entity :=
  ((ins.filter (fun kv => kv.1 = k)).getLast?).map (fun kv => kv.2)

/-! ### Filesystem operations (`LycheeFS.getattr/readdir/open/read`) -/

/-- Failure modes of the operations.  The first five model errno codes the
source returns as values (`-errno.X`); `keyError` models the exception an
unguarded `self.objects[path]` lookup raises for a missing key. -/
inductive FsError where
  | enoent | enotdir | eisdir | eacces | eoverflow | keyError
deriving DecidableEq, Repr

/-- The documented error-code taxonomy of the operation surface; the raised
KeyError is not part of it. -/
def errnoTaxonomy : List FsError :=
  [.enoent, .enotdir, .eisdir, .eacces, .eoverflow]

/-- The path index as the operations consume it. -/
def Objects : Type := List Char → Option Entity

/-- `os.O_RDONLY`. -/
def O_RDONLY : Nat := 0

/-- `os.O_WRONLY`. -/
def O_WRONLY : Nat := 1

/-- `os.O_RDWR`. -/
def O_RDWR : Nat := 2

/-- `LycheeFS.getattr`: the stored stat object, or ENOENT. -/
def fsGetattr (objects : Objects) (path : List Char) : Except FsError Stats :=
  match objects path with
  | some e => .ok e.stats
  | none => .error .enoent

/-- One entry yielded by readdir: a name and the `stat` type constant. -/
def direntOf (child : Entity) : List Char × Nat :=
  (child.title, if child.isAlbum then S_IFDIR else S_IFREG)

/-- The generator body of `LycheeFS.readdir`: look each recorded child path
up in the index (an unguarded dictionary access) and yield its name and
kind. -/
def readdirEntries (objects : Objects) : List (List Char) → Except FsError (List (List Char × Nat))
  | [] => .ok []
  | cp :: rest =>
    match objects cp with
    | none => .error .keyError
    | some child =>
      match readdirEntries objects rest with
      | .error e => .error e
      | .ok es => .ok (direntOf child :: es)

/-- `LycheeFS.readdir`: ENOENT for unknown paths, ENOTDIR on photos, else the
direntries of the recorded children, in crawl order. -/
def fsReaddir (objects : Objects) (path : List Char) :
    Except FsError (List (List Char × Nat)) :=
  match objects path with
  | none => .error .enoent
  | some (.image _) => .error .enotdir
  | some (.album a) => readdirEntries objects a.childrenPath

/-- `LycheeFS.open`: ENOENT for unknown paths; EACCES whenever any access-mode
bit of `O_RDONLY|O_WRONLY|O_RDWR` is set; then EISDIR for an album opened
with a write bit (unreachable: the EACCES guard already fired). -/
def fsOpen (objects : Objects) (path : List Char) (flags : Nat) : Except FsError Unit :=
  match objects path with
  | none => .error .enoent
  | some obj =>
    if flags &&& (O_RDONLY ||| O_WRONLY ||| O_RDWR) ≠ 0 then .error .eacces
    else if obj.isAlbum ∧ flags &&& (O_WRONLY ||| O_RDWR) ≠ 0 then .error .eisdir
    else .ok ()

/-- What the collaborator returns for `get_photos_archive([id], quality)`:
the raw bytes of the photo at the requested tier. -/
def Server : Type := Int → LycheeQuality → List Nat

/-- `LycheeImage._fetch_content`: download the bytes for this photo at its
resolved quality into the content buffer. -/
def fetchContent (server : Server) (img : ImageData) : ImageData :=
  { img with content := server img.id img.quality }

/-- Python slice `l[lo:hi]` for the non-negative bounds used by `read`. -/
def pySlice (l : List Nat) (lo hi : Nat) : List Nat :=
  (l.take hi).drop lo

/-- `LycheeImage.__getitem__` on a slice: fetch the content first when the
buffer is empty, then slice it.  Also reports how many collaborator fetches
the call performed (0 or 1). -/
def getitemSlice (server : Server) (img : ImageData) (lo hi : Nat) :
    ImageData × List Nat × Nat :=
  if img.content.length = 0 then
    let img' := fetchContent server img
    (img', pySlice img'.content lo hi, 1)
  else (img, pySlice img.content lo hi, 0)

/-- `LycheeImage.__len__`: the metadata size, without touching the content. -/
def imageLen (img : ImageData) : Nat :=
  img.stats.st_size

/-- Result of one `read` call: the returned value (bytes or error), the path
index afterwards (the photo object is mutated in place), and the number of
collaborator fetches performed. -/
structure ReadOut where
  result : Except FsError (List Nat)
  objects : Objects
  fetches : Nat

/-- Point update of the index, standing for in-place mutation of the stored
photo object. -/
def setObject (objects : Objects) (path : List Char) (e : Entity) : Objects :=
  fun k => if k = path then some e else objects k

/-- `LycheeFS.read`: an unguarded index lookup (KeyError when absent), EISDIR
on albums, EOVERFLOW at or beyond the metadata length, and otherwise the
slice `photo[offset : offset + size]` with `size` clamped to the remaining
length first. -/
def fsRead (server : Server) (objects : Objects) (path : List Char)
    (size offset : Nat) : ReadOut :=
  match objects path with
  | none => ⟨.error .keyError, objects, 0⟩
  | some (.album _) => ⟨.error .eisdir, objects, 0⟩
  | some (.image img) =>
    if offset ≥ imageLen img then ⟨.error .eoverflow, objects, 0⟩
    else
      let size' := if offset + size ≥ imageLen img then imageLen img - offset else size
      let r := getitemSlice server img offset (offset + size')
      ⟨.ok r.2.1, setObject objects path (.image r.1), r.2.2⟩

/-! ### Derived views of the crawled tree, used to state and prove the
index invariants -/

mutual
/-- Relative component paths (title sequences) of every node of an album's
subtree, listed in the order the crawl registers them: each subalbum's
subtree first, then the photos, then the album itself (`[]`). -/
def relPathsA : AlbumJson → List (List (List Char))
  | .mk _ _ _ _ subs photos =>
    relPathsSubs subs ++ photos.map (fun e => [photoTitle e]) ++ [[]]

/-- Relative paths contributed by a subalbum list. -/
def relPathsSubs : List AlbumJson → List (List (List Char))
  | [] => []
  | e :: rest => (relPathsA e).map (fun ds => e.title :: ds) ++ relPathsSubs rest
end

mutual
/-- Relative component paths of the album nodes of a subtree. -/
def albumRels : AlbumJson → List (List (List Char))
  | .mk _ _ _ _ subs _ => albumRelsSubs subs ++ [[]]

/-- Album relative paths contributed by a subalbum list. -/
def albumRelsSubs : List AlbumJson → List (List (List Char))
  | [] => []
  | e :: rest => (albumRels e).map (fun ds => e.title :: ds) ++ albumRelsSubs rest
end

mutual
/-- Relative component paths of the photo nodes of a subtree. -/
def photoRels : AlbumJson → List (List (List Char))
  | .mk _ _ _ _ subs photos =>
    photoRelsSubs subs ++ photos.map (fun e => [photoTitle e])

/-- Photo relative paths contributed by a subalbum list. -/
def photoRelsSubs : List AlbumJson → List (List (List Char))
  | [] => []
  | e :: rest => (photoRels e).map (fun ds => e.title :: ds) ++ photoRelsSubs rest
end

mutual
/-- Every title in the subtree (subalbum titles and computed photo file
names) is a plain path component. -/
def SimpleTree : AlbumJson → Bool
  | .mk _ _ _ _ subs photos =>
    SimpleSubs subs && photos.all (fun e => decide (goodTitle (photoTitle e)))

/-- `SimpleTree` over a subalbum list, including the subalbums' own titles. -/
def SimpleSubs : List AlbumJson → Bool
  | [] => true
  | e :: rest => (decide (goodTitle e.title) && SimpleTree e) && SimpleSubs rest
end

mutual
/-- The entities the crawl of album `a` (rooted at the path whose components
are `cs`) inserts under the key `pathOfComps (cs ++ ds)`, in insertion order;
`p` is that key itself.  Used to characterise last-write-wins lookups. -/
def entitiesAtRel (ctx : Ctx) : AlbumJson → List (List Char) → List Char → List Entity
  | a, [], p => [Entity.album (mkAlbumData ctx a p)]
  | .mk _ _ _ _ subs photos, t :: rest, p =>
    entitiesAtRelSubs ctx subs t rest p ++
      (if rest = [] then
        (photos.filter (fun e => photoTitle e = t)).map
          (fun e => Entity.image (mkImage ctx e))
      else [])

/-- `entitiesAtRel` over a subalbum list. -/
def entitiesAtRelSubs (ctx : Ctx) :
    List AlbumJson → List Char → List (List Char) → List Char → List Entity
  | [], _, _, _ => []
  | e :: es, t, rest, p =>
    (if e.title = t then entitiesAtRel ctx e rest p else []) ++
      entitiesAtRelSubs ctx es t rest p
end

/-- A direct child of an album in crawl order: subalbums (left) before
photos (right). -/
def childrenOf (a : AlbumJson) : List (AlbumJson ⊕ PhotoJson) :=
  a.subalbums.map Sum.inl ++ a.photos.map Sum.inr

/-- The displayed name of a direct child. -/
def childTitle : AlbumJson ⊕ PhotoJson → List Char
  | .inl e => e.title
  | .inr e => photoTitle e

/-- The entity the crawl of the parent at path `p` registers for a direct
child. -/
def childEntity (ctx : Ctx) (p : List Char) : AlbumJson ⊕ PhotoJson → Entity
  | .inl e => Entity.album (mkAlbumData ctx e (joinNorm p e.title))
  | .inr e => Entity.image (mkImage ctx e)

/-! ### Claim-side definitions (formalising the specification wording) -/

/-- The resolution rule exactly as claim C1 words it: the smallest tier at
least the requested one (in enum order) that is present in the available
set, and FULL when no such tier below FULL is present. -/
def claimedResolve (q : LycheeQuality) (variants : LycheeQuality → Bool) : LycheeQuality :=
  match qualityList.find? (fun t => decide (q.val ≤ t.val) && decide (t.val < 6) && variants t) with
  | some t => t
  | none => LycheeQuality.FULL

/-- The configuration-time processing of the requested quality name
(`_get_options`): the option value is stored as given, with the `SMALL`
default when absent; no validation against the tier names happens. -/
def getOptionQuality (opt : Option (List Char)) : List Char :=
  opt.getD (qualityName .SMALL)

/-- The descriptor view of an entity: everything except the photo content
buffer (used to state that reads change nothing but the buffer). -/
def descrOf : Entity → Entity
  | .album a => .album a
  | .image i => .image { i with content := [] }

/-! ### Concrete instances used by witnesses and counterexamples -/

/-- Construction context used by the concrete scenarios. -/
def ctxD : Ctx := ⟨.SMALL, 0, 0, 0⟩

/-- A photo with every size variant available. -/
def phP : PhotoJson := ⟨1, ['p'], none, some 10, 0, 0, fun _ => true⟩

/-- A photo whose title contains a path separator. -/
def phSlash : PhotoJson := ⟨3, ['a', '/', 'b'], none, some 10, 0, 0, fun _ => true⟩

/-- A photo titled `c`. -/
def phC : PhotoJson := ⟨4, ['c'], none, some 10, 0, 0, fun _ => true⟩

/-- A well-behaved tree: the root contains album `x`, which contains photo
`p`. -/
def treeGood : AlbumJson := .mk (-1) ['/'] 0 0 [.mk 2 ['x'] 0 0 [] [phP]] []

/-- A tree whose photo title contains a separator. -/
def treeCE6 : AlbumJson := .mk (-1) ['/'] 0 0 [.mk 2 ['x'] 0 0 [] [phSlash]] []

/-- A tree where album `x` has child `y` while a sibling of `x` is titled
`x/y`, so the sibling's registration lands on the key `/x/y`. -/
def treeCE7 : AlbumJson :=
  .mk (-1) ['/'] 0 0
    [.mk 2 ['x'] 0 0 [.mk 3 ['y'] 0 0 [] []] [],
     .mk 4 ['x', '/', 'y'] 0 0 [] []] []

/-- A parent whose subalbum and photo share the title `c`. -/
def treeC10 : AlbumJson := .mk 9 ['P'] 0 0 [.mk 5 ['c'] 0 0 [] []] [phC]

/-- An unknown quality-tier name. -/
def nameBogus : List Char := ['B', 'O', 'G', 'U', 'S']

/-- A photo object of length 3 whose buffer has not been filled yet. -/
def imgD : ImageData := ⟨1, ['p'], ⟨S_IFREG + 292, 0, 0, 1, 3, 0, 0, 0⟩, .SMALL, []⟩

/-- A collaborator that always serves three bytes. -/
def serverD : Server := fun _ _ => [7, 8, 9]

/-- An index holding the single photo `/p`. -/
def objectsD : Objects := fun k => if k = ['/', 'p'] then some (.image imgD) else none

/-- A bare root-album entity. -/
def albumEntD : Entity := .album ⟨-1, ['/'], ⟨S_IFDIR + 493, 0, 0, 1, 4096, 0, 0, 0⟩, []⟩

/-- An index holding only the root album. -/
def objectsAlb : Objects := fun k => if k = ['/'] then some albumEntD else none

/-- The empty index. -/
def objectsNone : Objects := fun _ => none

/-- Every component of the list is a plain path component. -/
def goodComps (cs : List (List Char)) : Prop :=
  ∀ c ∈ cs, goodTitle c

/-- The direntry readdir yields for a recorded child path (a view used to
state listing results; absent keys give a dummy entry and never occur in the
proved statements). -/
def direntAt (objects : Objects) (cp : List Char) : List Char × Nat :=
  match objects cp with
  | some v => direntOf v
  | none => ([], 0)

/-- The `stat` kind constant of a direct child. -/
def childKind : AlbumJson ⊕ PhotoJson → Nat
  | .inl _ => S_IFDIR
  | .inr _ => S_IFREG

/-- The entity a direct child contributes under a fixed key (album children
are registered with the shared key as their path when their title matches
it). -/
def topEntity (ctx : Ctx) (p : List Char) : AlbumJson ⊕ PhotoJson → Entity
  | .inl e => Entity.album (mkAlbumData ctx e p)
  | .inr e => Entity.image (mkImage ctx e)

/-! ## Theorems -/

set_option maxRecDepth 4000 in
/-- Claim C1: for every photo and requested tier, the quality resolved at
Photo construction is the smallest tier at least the requested one (in the
order THUMB < THUMB2X < SMALL < SMALL2X < MEDIUM < MEDIUM2X < FULL) whose
variant is available, and FULL when no available tier below FULL qualifies. -/
theorem claim_C1_quality_resolution (ctx : Ctx) (e : PhotoJson) :
    (mkImage ctx e).quality = claimedResolve ctx.quality e.sizeVariants := by
  have h : ∀ (q : LycheeQuality) (v : LycheeQuality → Bool),
      qualitySet q v = claimedResolve q v := by decide
  exact h ctx.quality e.sizeVariants

/-- Claim C3 (code bug): opening an album with a write access bit returns
EACCES, not the EISDIR the docstring and the spec promise — the access-mode
guard `flags & accmode != 0` fires on every write bit before the EISDIR
branch can be reached, so that branch is dead code. -/
theorem claim_C3_open_album_write_eacces :
    fsOpen objectsAlb ['/'] O_WRONLY = .error .eacces ∧
    fsOpen objectsAlb ['/'] O_RDWR = .error .eacces ∧
    ∀ flags : Nat, fsOpen objectsAlb ['/'] flags ≠ .error .eisdir := by
  refine ⟨rfl, rfl, ?_⟩
  intro flags
  show fsOpen objectsAlb ['/'] flags ≠ .error .eisdir
  have hmask : (O_RDONLY ||| O_WRONLY ||| O_RDWR : Nat) = 3 := by decide
  have hmask2 : (O_WRONLY ||| O_RDWR : Nat) = 3 := by decide
  have hobj : objectsAlb ['/'] = some albumEntD := rfl
  unfold fsOpen
  rw [hobj, hmask, hmask2]
  by_cases h : flags &&& 3 = 0 <;> simp [h]

/-- Claim C4 (counterexample): an unknown requested-tier name passes through
configuration untouched (no InvalidArgument is raised at configuration
time), and instead the first Photo construction with that name fails. -/
theorem claim_C4_counterexample :
    getOptionQuality (some nameBogus) = nameBogus ∧
    mkImageNamed 0 0 0 nameBogus phP = none := by
  exact ⟨rfl, rfl⟩

/-- Claim C4 (amended): a malformed or unknown requested quality-tier name is
not rejected at configuration time — option processing stores it as given —
and the failure instead surfaces as a raised lookup error (KeyError) when a
Photo is constructed with it during the crawl. -/
theorem claim_C4_amended (s : List Char) (h : qualityOfName s = none) :
    getOptionQuality (some s) = s ∧
    ∀ (uid gid : Nat) (now : Int) (e : PhotoJson),
      mkImageNamed uid gid now s e = none := by
  refine ⟨rfl, fun uid gid now e => ?_⟩
  unfold mkImageNamed qualitySetName
  rw [h]

/-- Witness for the amended claim C4, at the concrete unknown name BOGUS. -/
theorem claim_C4_witness :
    qualityOfName nameBogus = none ∧
    (getOptionQuality (some nameBogus) = nameBogus ∧
      ∀ (uid gid : Nat) (now : Int) (e : PhotoJson),
        mkImageNamed uid gid now nameBogus e = none) :=
  ⟨by decide, claim_C4_amended nameBogus (by decide)⟩

/-- Claim C9: reading a path that is not in the index does not produce any
error code of the documented taxonomy — the unguarded dictionary lookup
raises (KeyError), so read is total only for indexed paths. -/
theorem claim_C9_read_unindexed (server : Server) (objects : Objects)
    (path : List Char) (size offset : Nat) (h : objects path = none) :
    (fsRead server objects path size offset).result = Except.error .keyError ∧
    FsError.keyError ∉ errnoTaxonomy := by
  refine ⟨?_, by decide⟩
  unfold fsRead
  rw [h]

/-- Witness for claim C9 at a concrete missing path. -/
theorem claim_C9_witness :
    objectsNone ['q'] = none ∧
    ((fsRead serverD objectsNone ['q'] 1 0).result = Except.error .keyError ∧
      FsError.keyError ∉ errnoTaxonomy) :=
  ⟨rfl, claim_C9_read_unindexed serverD objectsNone ['q'] 1 0 rfl⟩

/-- Claim C8: a photo's stat descriptor is fixed at construction from the
original file's size (4096 default aside), does not depend on the resolved
quality, and no read — including the one that populates the content
buffer — changes any stored descriptor field of any entity: reads alter at
most a photo's content buffer. -/
theorem claim_C8_descriptor_frame :
    (∀ (ctx : Ctx) (e : PhotoJson), (mkImage ctx e).stats =
      { mkStats ctx.uid ctx.gid ctx.now e.filesize e.createdAt e.updatedAt with
          st_mode := S_IFREG + 292 }) ∧
    (∀ (ctx : Ctx) (e : PhotoJson), (mkImage ctx e).stats.st_size = e.filesize.getD 4096) ∧
    ∀ (server : Server) (objects : Objects) (path : List Char) (size offset : Nat)
      (k : List Char),
      ((fsRead server objects path size offset).objects k).map descrOf =
        (objects k).map descrOf := by
  refine ⟨fun ctx e => rfl, fun ctx e => rfl, ?_⟩
  intro server objects path size offset k
  unfold fsRead
  cases hobj : objects path with
  | none => rfl
  | some ent =>
    cases ent with
    | album a => rfl
    | image img =>
      by_cases hov : offset ≥ imageLen img
      · simp only [hov, ite_true, ge_iff_le, le_refl]
      · simp only [hov, ite_false]
        show (setObject objects path
            (.image (getitemSlice server img offset _).1) k).map descrOf =
          (objects k).map descrOf
        unfold setObject
        by_cases hk : k = path
        · subst hk
          rw [hobj]
          simp only [if_pos rfl, Option.map_some]
          unfold getitemSlice
          by_cases hc : img.content.length = 0
          · simp only [hc, ite_true]
            rfl
          · simp only [hc, ite_false]
            simp
        · simp only [if_neg hk]

/-- Unfolding lemma: `read` on an indexed photo checks the metadata length,
clamps the size, and slices via `__getitem__`. -/
theorem fsRead_image (server : Server) (objects : Objects) (path : List Char)
    (img : ImageData) (hobj : objects path = some (.image img)) (size offset : Nat) :
    fsRead server objects path size offset =
      if offset ≥ imageLen img then ⟨.error .eoverflow, objects, 0⟩
      else
        ⟨.ok (getitemSlice server img offset
            (offset + (if offset + size ≥ imageLen img then imageLen img - offset else size))).2.1,
         setObject objects path (.image (getitemSlice server img offset
            (offset + (if offset + size ≥ imageLen img then imageLen img - offset else size))).1),
         (getitemSlice server img offset
            (offset + (if offset + size ≥ imageLen img then imageLen img - offset else size))).2.2⟩ := by
  unfold fsRead
  rw [hobj]

/-- `__getitem__` on an empty buffer performs the single fetch. -/
theorem getitemSlice_empty (server : Server) (img : ImageData) (lo hi : Nat)
    (h : img.content = []) :
    getitemSlice server img lo hi =
      (fetchContent server img, pySlice (server img.id img.quality) lo hi, 1) := by
  unfold getitemSlice fetchContent
  simp [h]

/-- `__getitem__` on a populated buffer slices it without fetching. -/
theorem getitemSlice_full (server : Server) (img : ImageData) (lo hi : Nat)
    (h : img.content ≠ []) :
    getitemSlice server img lo hi = (img, pySlice img.content lo hi, 0) := by
  unfold getitemSlice
  simp [h]

/-- Writing back the value a key already holds leaves the index unchanged. -/
theorem setObject_eq_self (objects : Objects) (path : List Char) (e : Entity)
    (h : objects path = some e) : setObject objects path e = objects := by
  funext k
  unfold setObject
  by_cases hk : k = path
  · subst hk
    rw [if_pos rfl, h]
  · rw [if_neg hk]

/-- Claim C2: reading an indexed photo of content length `L` fails with
EOVERFLOW exactly when the offset is at or beyond `L`, and a read that
starts inside but would run past the end silently clamps and returns
exactly `L - offset` bytes. -/
theorem claim_C2_read_range (server : Server) (objects : Objects) (path : List Char)
    (img : ImageData) (L size offset : Nat)
    (hobj : objects path = some (.image img))
    (hlen : imageLen img = L)
    (hserver : (server img.id img.quality).length = L)
    (hcontent : img.content = [] ∨ img.content = server img.id img.quality) :
    (offset ≥ L → (fsRead server objects path size offset).result = .error .eoverflow) ∧
    (offset < L → offset + size > L →
      ∃ bytes, (fsRead server objects path size offset).result = .ok bytes ∧
        bytes.length = L - offset) := by
  constructor
  · intro hge
    rw [fsRead_image server objects path img hobj size offset, if_pos (by omega)]
  · intro hlt hgt
    rw [fsRead_image server objects path img hobj size offset, if_neg (by omega)]
    have hsz : (if offset + size ≥ imageLen img then imageLen img - offset else size) =
        L - offset := by
      rw [if_pos (by omega)]
      omega
    rw [hsz]
    rcases hcontent with hc | hc
    · rw [getitemSlice_empty server img _ _ hc]
      refine ⟨_, rfl, ?_⟩
      simp only [pySlice, List.length_drop, List.length_take, hserver]
      omega
    · have hne : img.content ≠ [] := by
        intro h0
        rw [h0] at hc
        rw [← hc] at hserver
        simp only [List.length_nil] at hserver
        omega
      rw [getitemSlice_full server img _ _ hne]
      refine ⟨_, rfl, ?_⟩
      rw [hc]
      simp only [pySlice, List.length_drop, List.length_take, hserver]
      omega

/-- Witness for claim C2: a three-byte photo read at offset 2 with size 5
returns exactly one byte; offsets at or past 3 overflow. -/
theorem claim_C2_witness :
    objectsD ['/', 'p'] = some (.image imgD) ∧
    ((2 ≥ 3 → (fsRead serverD objectsD ['/', 'p'] 5 2).result = .error .eoverflow) ∧
      (2 < 3 → 2 + 5 > 3 →
        ∃ bytes, (fsRead serverD objectsD ['/', 'p'] 5 2).result = .ok bytes ∧
          bytes.length = 3 - 2)) :=
  ⟨rfl, claim_C2_read_range serverD objectsD ['/', 'p'] imgD 3 5 2 rfl rfl rfl (Or.inl rfl)⟩

/-- Claim C5: a photo's buffer is lazily populated by exactly one fetch on
the first successful read — construction leaves it empty — and afterwards
every read of the path fetches nothing, leaves the index unchanged, returns
the slice of the populated buffer, and repeats identically. -/
theorem claim_C5_lazy_single_fetch (server : Server) (objects : Objects)
    (path : List Char) (img : ImageData) (size offset : Nat)
    (hobj : objects path = some (.image img))
    (hempty : img.content = [])
    (hserver : server img.id img.quality ≠ [])
    (hread : offset < imageLen img) :
    (∀ (ctx : Ctx) (e : PhotoJson), (mkImage ctx e).content = []) ∧
    (fsRead server objects path size offset).fetches = 1 ∧
    (fsRead server objects path size offset).objects path =
      some (.image (fetchContent server img)) ∧
    (∀ size2 offset2 : Nat,
      (fsRead server (fsRead server objects path size offset).objects path size2
          offset2).fetches = 0 ∧
      (fsRead server (fsRead server objects path size offset).objects path size2
          offset2).objects = (fsRead server objects path size offset).objects ∧
      (∀ b, (fsRead server (fsRead server objects path size offset).objects path size2
          offset2).result = .ok b →
        b = pySlice (server img.id img.quality) offset2
          (offset2 + (if offset2 + size2 ≥ imageLen img then imageLen img - offset2
            else size2))) ∧
      (fsRead server ((fsRead server (fsRead server objects path size offset).objects
          path size2 offset2).objects) path size2 offset2).result =
        (fsRead server (fsRead server objects path size offset).objects path size2
          offset2).result) := by
  have hR1 : fsRead server objects path size offset =
      ⟨.ok (pySlice (server img.id img.quality) offset
          (offset + (if offset + size ≥ imageLen img then imageLen img - offset else size))),
       setObject objects path (.image (fetchContent server img)), 1⟩ := by
    rw [fsRead_image server objects path img hobj size offset, if_neg (by omega),
      getitemSlice_empty server img _ _ hempty]
  have hO1 : (fsRead server objects path size offset).objects path =
      some (.image (fetchContent server img)) := by
    rw [hR1]
    show setObject objects path (.image (fetchContent server img)) path = _
    unfold setObject
    rw [if_pos rfl]
  have hc1 : (fetchContent server img).content = server img.id img.quality := rfl
  have hlen1 : imageLen (fetchContent server img) = imageLen img := rfl
  refine ⟨fun ctx e => rfl, by rw [hR1], hO1, ?_⟩
  intro size2 offset2
  have hR2 : fsRead server (fsRead server objects path size offset).objects path
      size2 offset2 =
      if offset2 ≥ imageLen img then
        ⟨.error .eoverflow, (fsRead server objects path size offset).objects, 0⟩
      else
        ⟨.ok (pySlice (server img.id img.quality) offset2
            (offset2 + (if offset2 + size2 ≥ imageLen img then imageLen img - offset2
              else size2))),
         (fsRead server objects path size offset).objects, 0⟩ := by
    rw [fsRead_image server _ path (fetchContent server img) hO1 size2 offset2]
    rw [hlen1]
    by_cases h2 : offset2 ≥ imageLen img
    · rw [if_pos h2, if_pos h2]
    · rw [if_neg h2, if_neg h2]
      have hne : (fetchContent server img).content ≠ [] := by
        rw [hc1]
        exact hserver
      rw [getitemSlice_full server _ _ _ hne]
      rw [setObject_eq_self _ path _ hO1]
      rw [hc1]
  by_cases h2 : offset2 ≥ imageLen img
  · rw [hR2, if_pos h2]
    refine ⟨rfl, rfl, ?_, ?_⟩
    · intro b hb
      exact absurd hb (fun h => Except.noConfusion h)
    · rw [hR2, if_pos h2]
  · rw [hR2, if_neg h2]
    refine ⟨rfl, rfl, ?_, ?_⟩
    · intro b hb
      exact (Except.ok.inj hb).symm
    · rw [hR2, if_neg h2]

/-- Witness for claim C5: the first read of the three-byte photo fetches
exactly once and populates the buffer. -/
theorem claim_C5_witness :
    imgD.content = [] ∧ serverD imgD.id imgD.quality ≠ [] ∧ (0 : Nat) < imageLen imgD ∧
    (fsRead serverD objectsD ['/', 'p'] 2 0).fetches = 1 ∧
    (fsRead serverD objectsD ['/', 'p'] 2 0).objects ['/', 'p'] =
      some (.image (fetchContent serverD imgD)) :=
  ⟨rfl, by decide, by decide,
    (claim_C5_lazy_single_fetch serverD objectsD ['/', 'p'] imgD 2 0 rfl rfl
      (by decide) (by decide)).2.1,
    (claim_C5_lazy_single_fetch serverD objectsD ['/', 'p'] imgD 2 0 rfl rfl
      (by decide) (by decide)).2.2.1⟩

/-- Claim C6 (counterexample): after crawling a tree whose photo is titled
`a/b`, the key `/x/a/b` is in the index while its proper ancestor prefix
`/x/a` is not — the ancestor-closure invariant fails for titles containing
separators. -/
theorem claim_C6_counterexample :
    (finalLookup (crawlAlbum ctxD treeCE6 ['/']) ['/', 'x', '/', 'a', '/', 'b']).isSome =
      true ∧
    ['/', 'x', '/', 'a'] ∈ properAncestors ['/', 'x', '/', 'a', '/', 'b'] ∧
    finalLookup (crawlAlbum ctxD treeCE6 ['/']) ['/', 'x', '/', 'a'] = none := by
  refine ⟨by decide, by decide, by decide⟩

/-- Claim C7 (counterexample): in the crawled tree where a sibling titled
`x/y` overwrote the entry for `x`'s child `y`, listing `/x` yields the entry
name `x/y`, and joining it to `/x` gives `/x/x/y`, which getattr reports as
missing. -/
theorem claim_C7_counterexample :
    fsReaddir (finalLookup (crawlAlbum ctxD treeCE7 ['/'])) ['/', 'x'] =
      .ok [(['x', '/', 'y'], S_IFDIR)] ∧
    fsGetattr (finalLookup (crawlAlbum ctxD treeCE7 ['/']))
      (joinNorm ['/', 'x'] ['x', '/', 'y']) = .error .enoent := by
  exact ⟨rfl, rfl⟩

/-! ### Path lemmas for well-behaved components -/

/-- Splitting a separator-free string gives the single piece. -/
theorem splitSlash_no_slash (t : List Char) (h : '/' ∉ t) : splitSlash t = [t] := by
  induction t with
  | nil => rfl
  | cons c rest ih =>
    have hc : c ≠ '/' := fun hc => h (hc ▸ List.mem_cons_self c rest)
    have hr : '/' ∉ rest := fun hr => h (List.mem_cons_of_mem c hr)
    rw [splitSlash]
    · rw [ih hr]
    · exact hc

/-- Splitting after a separator-free chunk peels that chunk off. -/
theorem splitSlash_append (c r : List Char) (h : '/' ∉ c) :
    splitSlash (c ++ '/' :: r) = c :: splitSlash r := by
  induction c with
  | nil => rfl
  | cons a c' ih =>
    have ha : a ≠ '/' := fun hc => h (hc ▸ List.mem_cons_self a c')
    have hr : '/' ∉ c' := fun hr => h (List.mem_cons_of_mem a hr)
    rw [List.cons_append, splitSlash]
    · rw [ih hr]
    · exact ha

/-- Unfolding equation for `sepJoin` on a list of two or more components. -/
theorem sepJoin_cons_cons (c d : List Char) (l : List (List Char)) :
    sepJoin (c :: d :: l) = c ++ '/' :: sepJoin (d :: l) := rfl

/-- Joining components distributes over appending one more component. -/
theorem sepJoin_append (cs : List (List Char)) (t : List Char) (h : cs ≠ []) :
    sepJoin (cs ++ [t]) = sepJoin cs ++ '/' :: t := by
  induction cs with
  | nil => exact absurd rfl h
  | cons c rest ih =>
    cases rest with
    | nil => rfl
    | cons d rest' =>
      rw [List.cons_append, List.cons_append, sepJoin_cons_cons c d (rest' ++ [t]),
        show d :: (rest' ++ [t]) = d :: rest' ++ [t] from (List.cons_append d rest' [t]).symm,
        ih (List.cons_ne_nil d rest'), sepJoin_cons_cons c d rest']
      simp

/-- Appending a component to a non-empty absolute path. -/
theorem pathOfComps_append (cs : List (List Char)) (t : List Char) (h : cs ≠ []) :
    pathOfComps (cs ++ [t]) = pathOfComps cs ++ '/' :: t := by
  unfold pathOfComps
  rw [sepJoin_append cs t h]
  simp

/-- A good component is a fixed point of normpath. -/
theorem normpath_good (t : List Char) (h : goodTitle t) : normpath t = t := by
  obtain ⟨hne, hsl, hdot, hdd⟩ := h
  unfold normpath
  rw [if_neg hne]
  have htake : t.take 1 ≠ ['/'] := by
    cases t with
    | nil => exact absurd rfl hne
    | cons c r =>
      simp only [List.take_succ_cons, List.take_zero]
      intro hc
      have : c = '/' := by simpa using hc
      exact hsl (this ▸ List.mem_cons_self c r)
  rw [if_neg htake]
  rw [splitSlash_no_slash t hsl]
  show (if List.replicate 0 '/' ++ sepJoin (normLoop 0 [] [t]) = [] then ['.']
    else List.replicate 0 '/' ++ sepJoin (normLoop 0 [] [t])) = t
  have hloop : normLoop 0 [] [t] = [t] := by
    unfold normLoop
    rw [if_neg (by simp [hne, hdot]), if_pos (Or.inl hdd)]
    rfl
  rw [hloop]
  simp [sepJoin, hne]

/-- A good title does not start with the separator. -/
theorem goodTitle_take_one (t : List Char) (h : goodTitle t) : t.take 1 ≠ ['/'] := by
  obtain ⟨hne, hsl, -, -⟩ := h
  cases t with
  | nil => exact absurd rfl hne
  | cons c r =>
    simp only [List.take_succ_cons, List.take_zero]
    intro hc
    have : c = '/' := by simpa using hc
    exact hsl (this ▸ List.mem_cons_self c r)

/-- An absolute path is never the empty string. -/
theorem pathOfComps_ne_nil (cs : List (List Char)) : pathOfComps cs ≠ [] := by
  unfold pathOfComps
  exact List.cons_ne_nil _ _

/-- Splitting the join of good components recovers them (Python splits the
empty join into one empty piece). -/
theorem splitSlash_sepJoin (cs : List (List Char)) (hg : goodComps cs) :
    splitSlash (sepJoin cs) = if cs = [] then [[]] else cs := by
  induction cs with
  | nil => rfl
  | cons c rest ih =>
    have hc : goodTitle c := hg c (List.mem_cons_self c rest)
    have hrest : goodComps rest := fun x hx => hg x (List.mem_cons_of_mem c hx)
    cases rest with
    | nil =>
      show splitSlash (sepJoin [c]) = [c]
      exact splitSlash_no_slash c hc.2.1
    | cons d rest' =>
      rw [sepJoin_cons_cons c d rest', splitSlash_append c _ hc.2.1, ih hrest]
      simp

/-- Splitting an absolute path of good components. -/
theorem splitSlash_pathOfComps (cs : List (List Char)) (hg : goodComps cs) :
    splitSlash (pathOfComps cs) = [] :: (if cs = [] then [[]] else cs) := by
  show splitSlash ('/' :: sepJoin cs) = _
  rw [splitSlash]
  rw [splitSlash_sepJoin cs hg]

/-- The normalization loop appends good components untouched. -/
theorem normLoop_good (s : Nat) (cs : List (List Char)) (hg : goodComps cs) :
    ∀ acc, normLoop s acc cs = acc ++ cs := by
  induction cs with
  | nil => intro acc; simp [normLoop]
  | cons c rest ih =>
    intro acc
    have hc : goodTitle c := hg c (List.mem_cons_self c rest)
    have hrest : goodComps rest := fun x hx => hg x (List.mem_cons_of_mem c hx)
    rw [normLoop]
    rw [if_neg (by simp [hc.1, hc.2.2.1]), if_pos (Or.inl hc.2.2.2)]
    rw [ih hrest (acc ++ [c])]
    simp

/-- Absolute paths of good components are fixed points of normpath. -/
theorem normpath_pathOfComps (cs : List (List Char)) (hg : goodComps cs) :
    normpath (pathOfComps cs) = pathOfComps cs := by
  have hp : pathOfComps cs ≠ [] := pathOfComps_ne_nil cs
  have htwo : (pathOfComps cs).take 2 ≠ ['/', '/'] := by
    cases cs with
    | nil => simp [pathOfComps, sepJoin]
    | cons c rest =>
      have hc : goodTitle c := hg c (List.mem_cons_self c rest)
      obtain ⟨hne, hsl, -, -⟩ := hc
      cases c with
      | nil => exact absurd rfl hne
      | cons a c' =>
        have ha : a ≠ '/' := fun hc2 => hsl (hc2 ▸ List.mem_cons_self a c')
        cases rest with
        | nil =>
          show (('/' :: (a :: c')).take 2) ≠ _
          cases c' <;> simp [ha]
        | cons d rest' =>
          show (('/' :: ((a :: c') ++ '/' :: sepJoin (d :: rest'))).take 2) ≠ _
          simp [ha]
  have hS : (if (pathOfComps cs).take 1 = ['/'] then
      (if (pathOfComps cs).take 2 = ['/', '/'] ∧
          ¬ (pathOfComps cs).take 3 = ['/', '/', '/'] then 2 else 1)
      else 0) = 1 := by
    rw [if_pos (by show (('/' : Char) :: sepJoin cs).take 1 = ['/']; simp)]
    rw [if_neg (by intro h2; exact htwo h2.1)]
  unfold normpath
  rw [if_neg hp]
  show (if List.replicate (if (pathOfComps cs).take 1 = ['/'] then
      (if (pathOfComps cs).take 2 = ['/', '/'] ∧
          ¬ (pathOfComps cs).take 3 = ['/', '/', '/'] then 2 else 1)
      else 0) '/' ++ sepJoin (normLoop (if (pathOfComps cs).take 1 = ['/'] then
      (if (pathOfComps cs).take 2 = ['/', '/'] ∧
          ¬ (pathOfComps cs).take 3 = ['/', '/', '/'] then 2 else 1)
      else 0) [] (splitSlash (pathOfComps cs))) = [] then ['.']
    else List.replicate (if (pathOfComps cs).take 1 = ['/'] then
      (if (pathOfComps cs).take 2 = ['/', '/'] ∧
          ¬ (pathOfComps cs).take 3 = ['/', '/', '/'] then 2 else 1)
      else 0) '/' ++ sepJoin (normLoop (if (pathOfComps cs).take 1 = ['/'] then
      (if (pathOfComps cs).take 2 = ['/', '/'] ∧
          ¬ (pathOfComps cs).take 3 = ['/', '/', '/'] then 2 else 1)
      else 0) [] (splitSlash (pathOfComps cs)))) = pathOfComps cs
  rw [hS, splitSlash_pathOfComps cs hg]
  by_cases hcs : cs = []
  · subst hcs
    rfl
  · rw [if_neg hcs]
    rw [normLoop]
    rw [if_pos (Or.inl rfl)]
    rw [normLoop_good 1 cs hg []]
    simp only [List.nil_append, List.replicate]
    rw [if_neg (by exact fun h => pathOfComps_ne_nil cs h)]
    rfl

/-- The last character of an absolute path of good components is never the
separator. -/
theorem pathOfComps_getLast_ne (cs : List (List Char)) (hg : goodComps cs)
    (h : cs ≠ []) : (pathOfComps cs).getLast? ≠ some '/' := by
  induction cs with
  | nil => exact absurd rfl h
  | cons c rest ih =>
    have hc : goodTitle c := hg c (List.mem_cons_self c rest)
    have hrest : goodComps rest := fun x hx => hg x (List.mem_cons_of_mem c hx)
    cases rest with
    | nil =>
      show (('/' : Char) :: sepJoin [c]).getLast? ≠ some '/'
      show (('/' : Char) :: c).getLast? ≠ some '/'
      cases c with
      | nil => exact absurd rfl hc.1
      | cons a c' =>
        rw [List.getLast?_cons_cons]
        intro hlast
        exact hc.2.1 (List.mem_of_getLast?_eq_some hlast)
    | cons d rest' =>
      have heq : pathOfComps (c :: d :: rest') = ('/' :: c) ++ pathOfComps (d :: rest') := by
        show ('/' : Char) :: sepJoin (c :: d :: rest') = _
        rw [sepJoin_cons_cons c d rest']
        show ('/' : Char) :: (c ++ '/' :: sepJoin (d :: rest')) = _
        simp [pathOfComps]
      rw [heq, List.getLast?_append]
      have hne : pathOfComps (d :: rest') ≠ [] := pathOfComps_ne_nil _
      have hsome : (pathOfComps (d :: rest')).getLast?.isSome := by
        rw [List.getLast?_isSome]
        exact hne
      obtain ⟨x, hx⟩ := Option.isSome_iff_exists.mp hsome
      rw [hx]
      show some x ≠ some '/'
      intro hcon
      have : (pathOfComps (d :: rest')).getLast? = some '/' := by
        rw [hx]
        exact hcon
      exact ih hrest (List.cons_ne_nil d rest') this

/-- Joining a good title onto an absolute path of good components appends
exactly one component. -/
theorem joinNorm_good (cs : List (List Char)) (t : List Char) (hg : goodComps cs)
    (ht : goodTitle t) : joinNorm (pathOfComps cs) t = pathOfComps (cs ++ [t]) := by
  unfold joinNorm
  rw [normpath_pathOfComps cs hg, normpath_good t ht]
  unfold joinPath
  rw [if_neg (goodTitle_take_one t ht)]
  by_cases hcs : cs = []
  · subst hcs
    have hlast : (pathOfComps ([] : List (List Char))).getLast? = some '/' := rfl
    rw [if_pos (Or.inr hlast)]
    rfl
  · rw [if_neg ?_]
    · rw [pathOfComps_append cs t hcs]
    · intro hor
      rcases hor with h1 | h2
      · exact pathOfComps_ne_nil cs h1
      · exact pathOfComps_getLast_ne cs hg hcs h2

/-- Absolute paths of good components determine their components. -/
theorem pathOfComps_inj (cs ds : List (List Char)) (hc : goodComps cs)
    (hd : goodComps ds) (h : pathOfComps cs = pathOfComps ds) : cs = ds := by
  have h2 := congrArg splitSlash h
  rw [splitSlash_pathOfComps cs hc, splitSlash_pathOfComps ds hd] at h2
  have h3 : (if cs = [] then [[]] else cs) = (if ds = [] then [[]] else ds) :=
    List.cons.inj h2 |>.2
  by_cases hcs : cs = [] <;> by_cases hds : ds = []
  · rw [hcs, hds]
  · rw [if_pos hcs, if_neg hds] at h3
    have : goodTitle [] := hd [] (h3 ▸ List.mem_cons_self [] [])
    exact absurd rfl this.1
  · rw [if_neg hcs, if_pos hds] at h3
    have : goodTitle [] := hc [] (h3.symm ▸ List.mem_cons_self [] [])
    exact absurd rfl this.1
  · rw [if_neg hcs, if_neg hds] at h3
    exact h3

/-- The proper ancestors of an absolute path of good components are exactly
the paths of its proper component prefixes. -/
theorem properAncestors_pathOfComps (ds : List (List Char)) (hg : goodComps ds) :
    properAncestors (pathOfComps ds) =
      (List.range ds.length).map (fun i => pathOfComps (ds.take i)) := by
  unfold properAncestors
  rw [splitSlash_pathOfComps ds hg]
  by_cases hds : ds = []
  · subst hds
    rfl
  · rw [if_neg hds]
    show ((List.range ds.length).map (fun i => pathOfComps (ds.take i))).filter
        (fun a => a ≠ pathOfComps ds) = _
    rw [List.filter_eq_self.mpr]
    intro a ha
    obtain ⟨i, hi, hai⟩ := List.mem_map.mp ha
    have hilt : i < ds.length := List.mem_range.mp hi
    subst hai
    simp only [decide_eq_true_eq]
    intro hcon
    have htake : ds.take i = ds :=
      pathOfComps_inj _ _ (fun x hx => hg x (List.mem_of_mem_take hx)) hg hcon
    have : (ds.take i).length = ds.length := by rw [htake]
    rw [List.length_take] at this
    omega

/-! ### Induction over the album tree -/

mutual
/-- Induction principle for the nested album tree. -/
theorem AlbumJson.indOn {motive : AlbumJson → Prop}
    (step : ∀ (i : Int) (t : List Char) (c u : Int) (subs : List AlbumJson)
      (photos : List PhotoJson), (∀ e ∈ subs, motive e) →
      motive (AlbumJson.mk i t c u subs photos)) :
    ∀ a, motive a
  | .mk i t c u subs photos => step i t c u subs photos (AlbumJson.indOnList step subs)

/-- Induction principle, list form. -/
theorem AlbumJson.indOnList {motive : AlbumJson → Prop}
    (step : ∀ (i : Int) (t : List Char) (c u : Int) (subs : List AlbumJson)
      (photos : List PhotoJson), (∀ e ∈ subs, motive e) →
      motive (AlbumJson.mk i t c u subs photos)) :
    ∀ l : List AlbumJson, ∀ e ∈ l, motive e
  | x :: xs, e, he =>
    Or.elim (List.mem_cons.mp he)
      (fun h => h ▸ AlbumJson.indOn step x)
      (fun h => AlbumJson.indOnList step xs e h)
end


/-! ### Structure of the relative-path views -/

/-- Unfolding a `SimpleSubs` cons. -/
theorem simpleSubs_cons (e : AlbumJson) (rest : List AlbumJson)
    (h : SimpleSubs (e :: rest) = true) :
    goodTitle e.title ∧ SimpleTree e = true ∧ SimpleSubs rest = true := by
  rw [SimpleSubs] at h
  rcases Bool.and_eq_true_iff.mp h with ⟨h1, h2⟩
  rcases Bool.and_eq_true_iff.mp h1 with ⟨h3, h4⟩
  exact ⟨of_decide_eq_true h3, h4, h2⟩

/-- Unfolding `SimpleTree` at a constructor. -/
theorem simpleTree_parts (i : Int) (t : List Char) (c u : Int)
    (subs : List AlbumJson) (photos : List PhotoJson)
    (h : SimpleTree (.mk i t c u subs photos) = true) :
    SimpleSubs subs = true ∧ ∀ e ∈ photos, goodTitle (photoTitle e) := by
  rw [SimpleTree] at h
  rcases Bool.and_eq_true_iff.mp h with ⟨h1, h2⟩
  refine ⟨h1, ?_⟩
  intro e he
  exact of_decide_eq_true (List.all_eq_true.mp h2 e he)

/-- A member of a simple subalbum list is itself simple and well titled. -/
theorem simpleSubs_mem : ∀ (subs : List AlbumJson), SimpleSubs subs = true →
    ∀ e ∈ subs, goodTitle e.title ∧ SimpleTree e = true := by
  intro subs
  induction subs with
  | nil => intro _ e he; exact absurd he (List.not_mem_nil e)
  | cons x xs ih =>
    intro hs e he
    obtain ⟨h1, h2, h3⟩ := simpleSubs_cons x xs hs
    rcases List.mem_cons.mp he with h | h
    · subst h
      exact ⟨h1, h2⟩
    · exact ih h3 e h

/-- Relative paths contributed by subalbums are non-empty. -/
theorem relPathsSubs_ne_nil : ∀ (subs : List AlbumJson), ∀ ds ∈ relPathsSubs subs,
    ds ≠ [] := by
  intro subs
  induction subs with
  | nil => intro ds h; exact absurd h (List.not_mem_nil ds)
  | cons e rest ih =>
    intro ds h
    rw [relPathsSubs] at h
    rcases List.mem_append.mp h with h | h
    · obtain ⟨x, -, hx⟩ := List.mem_map.mp h
      rw [← hx]
      exact List.cons_ne_nil _ _
    · exact ih ds h

/-- Lifting membership into the subalbum album-path list. -/
theorem mem_albumRelsSubs : ∀ (subs : List AlbumJson), ∀ e ∈ subs,
    ∀ x ∈ albumRels e, e.title :: x ∈ albumRelsSubs subs := by
  intro subs
  induction subs with
  | nil => intro e he; exact absurd he (List.not_mem_nil e)
  | cons y ys ih =>
    intro e he x hx
    rw [albumRelsSubs]
    rcases List.mem_cons.mp he with h | h
    · subst h
      exact List.mem_append_left _ (List.mem_map_of_mem _ hx)
    · exact List.mem_append_right _ (ih e h x hx)

/-- The album itself is among its album paths. -/
theorem nil_mem_albumRels (a : AlbumJson) : [] ∈ albumRels a := by
  cases a with
  | mk i t c u subs photos =>
    rw [albumRels]
    exact List.mem_append_right _ (List.mem_cons_self [] [])

/-- Helper: album paths of a subalbum list are relative paths of it. -/
theorem albumRelsSubs_sub : ∀ (subs : List AlbumJson),
    (∀ e ∈ subs, ∀ ds ∈ albumRels e, ds ∈ relPathsA e) →
    ∀ ds ∈ albumRelsSubs subs, ds ∈ relPathsSubs subs := by
  intro subs
  induction subs with
  | nil => intro _ ds hds; exact absurd hds (List.not_mem_nil ds)
  | cons y ys ih =>
    intro IH ds hds
    rw [albumRelsSubs] at hds
    rw [relPathsSubs]
    rcases List.mem_append.mp hds with h | h
    · obtain ⟨x, hx, hxe⟩ := List.mem_map.mp h
      refine List.mem_append_left _ ?_
      rw [← hxe]
      exact List.mem_map_of_mem _ (IH y (List.mem_cons_self y ys) x hx)
    · exact List.mem_append_right _
        (ih (fun e hee => IH e (List.mem_cons_of_mem y hee)) ds h)

/-- Album paths are relative paths. -/
theorem albumRels_sub_relPaths : ∀ a : AlbumJson, ∀ ds ∈ albumRels a,
    ds ∈ relPathsA a := by
  refine AlbumJson.indOn ?_
  intro i t c u subs photos IH ds hds
  rw [albumRels] at hds
  rw [relPathsA]
  rcases List.mem_append.mp hds with h | h
  · exact List.mem_append_left _
      (List.mem_append_left _ (albumRelsSubs_sub subs IH ds h))
  · exact List.mem_append_right _ h

/-- Helper: proper prefixes inside a subalbum list. -/
theorem relPathsSubs_take_mem : ∀ (subs : List AlbumJson),
    (∀ e ∈ subs, ∀ ds ∈ relPathsA e, ∀ i, i < ds.length →
      ds.take i ∈ albumRels e) →
    ∀ ds ∈ relPathsSubs subs, ∀ i, i < ds.length →
      i = 0 ∨ ds.take i ∈ albumRelsSubs subs := by
  intro subs
  induction subs with
  | nil => intro _ ds hds; exact absurd hds (List.not_mem_nil ds)
  | cons y ys ih =>
    intro IH ds hds i hi
    rw [relPathsSubs] at hds
    rcases List.mem_append.mp hds with h | h
    · obtain ⟨x, hx, hxe⟩ := List.mem_map.mp h
      subst hxe
      cases i with
      | zero => exact Or.inl rfl
      | succ j =>
        right
        rw [List.take_succ_cons]
        have hj : j < x.length := by simpa using hi
        rw [albumRelsSubs]
        exact List.mem_append_left _
          (List.mem_map_of_mem _ (IH y (List.mem_cons_self y ys) x hx j hj))
    · rcases ih (fun e hee => IH e (List.mem_cons_of_mem y hee)) ds h i hi with
        h0 | hmem
      · exact Or.inl h0
      · right
        rw [albumRelsSubs]
        exact List.mem_append_right _ hmem

/-- Every proper prefix of a relative path is an album path. -/
theorem relPaths_take_mem : ∀ a : AlbumJson, ∀ ds ∈ relPathsA a,
    ∀ i, i < ds.length → ds.take i ∈ albumRels a := by
  refine AlbumJson.indOn ?_
  intro ia ta ca ua subs photos IH ds hds i hi
  rw [relPathsA] at hds
  rw [albumRels]
  rcases List.mem_append.mp hds with h | h
  · rcases List.mem_append.mp h with h2 | h2
    · rcases relPathsSubs_take_mem subs IH ds h2 i hi with h0 | hmem
      · subst h0
        exact List.mem_append_right _ (List.mem_cons_self [] [])
      · exact List.mem_append_left _ hmem
    · obtain ⟨e, -, hee⟩ := List.mem_map.mp h2
      rw [← hee] at hi ⊢
      cases i with
      | zero => exact List.mem_append_right _ (List.mem_cons_self [] [])
      | succ j => simp at hi
  · have : ds = [] := by simpa using h
    subst this
    simp at hi

/-- Helper: relative paths of a subalbum list are lists of good components. -/
theorem relPathsSubs_good : ∀ (subs : List AlbumJson), SimpleSubs subs = true →
    (∀ e ∈ subs, SimpleTree e = true → ∀ ds ∈ relPathsA e, goodComps ds) →
    ∀ ds ∈ relPathsSubs subs, goodComps ds := by
  intro subs
  induction subs with
  | nil => intro _ _ ds hds; exact absurd hds (List.not_mem_nil ds)
  | cons y ys ih =>
    intro hs IH ds hds
    obtain ⟨hty, hsy, hys⟩ := simpleSubs_cons y ys hs
    rw [relPathsSubs] at hds
    rcases List.mem_append.mp hds with h | h
    · obtain ⟨x, hx, hxe⟩ := List.mem_map.mp h
      subst hxe
      intro ccc hccc
      rcases List.mem_cons.mp hccc with h2 | h2
      · subst h2
        exact hty
      · exact IH y (List.mem_cons_self y ys) hsy x hx ccc h2
    · exact ih hys (fun e hee => IH e (List.mem_cons_of_mem y hee)) ds h

/-- In a simple tree every relative path consists of good components. -/
theorem relPaths_good : ∀ a : AlbumJson, SimpleTree a = true →
    ∀ ds ∈ relPathsA a, goodComps ds := by
  refine AlbumJson.indOn ?_
  intro ia ta ca ua subs photos IH hS ds hds
  obtain ⟨hsubs, hph⟩ := simpleTree_parts ia ta ca ua subs photos hS
  rw [relPathsA] at hds
  rcases List.mem_append.mp hds with h | h
  · rcases List.mem_append.mp h with h2 | h2
    · exact relPathsSubs_good subs hsubs IH ds h2
    · obtain ⟨e, hee, hde⟩ := List.mem_map.mp h2
      subst hde
      intro ccc hccc
      rcases List.mem_cons.mp hccc with h3 | h3
      · subst h3
        exact hph e hee
      · exact absurd h3 (List.not_mem_nil ccc)
  · have : ds = [] := by simpa using h
    subst this
    intro ccc hccc
    exact absurd hccc (List.not_mem_nil ccc)

/-! ### The keys inserted by the crawl -/

/-- Helper: keys inserted by the subalbum loop. -/
theorem crawlSubs_keys (ctx : Ctx) : ∀ (subs : List AlbumJson) (cs : List (List Char)),
    SimpleSubs subs = true → goodComps cs →
    (∀ e ∈ subs, ∀ cs' : List (List Char), SimpleTree e = true → goodComps cs' →
      (crawlAlbum ctx e (pathOfComps cs')).map Prod.fst =
        (relPathsA e).map (fun ds => pathOfComps (cs' ++ ds))) →
    (crawlSubs ctx subs (pathOfComps cs)).map Prod.fst =
      (relPathsSubs subs).map (fun ds => pathOfComps (cs ++ ds)) := by
  intro subs
  induction subs with
  | nil => intro cs _ _ _; rfl
  | cons e rest ih =>
    intro cs hs hcs IH
    obtain ⟨hte, hse, hrest⟩ := simpleSubs_cons e rest hs
    rw [crawlSubs, relPathsSubs, List.map_append, List.map_append]
    have hcs' : goodComps (cs ++ [e.title]) := by
      intro x hx
      rcases List.mem_append.mp hx with h | h
      · exact hcs x h
      · rcases List.mem_cons.mp h with h2 | h2
        · subst h2; exact hte
        · exact absurd h2 (List.not_mem_nil x)
    have hjoin : joinNorm (pathOfComps cs) e.title = pathOfComps (cs ++ [e.title]) :=
      joinNorm_good cs e.title hcs hte
    rw [hjoin, IH e (List.mem_cons_self e rest) (cs ++ [e.title]) hse hcs']
    rw [ih cs hrest hcs (fun x hx => IH x (List.mem_cons_of_mem e hx))]
    rw [List.map_map]
    congr 1
    apply List.map_congr_left
    intro ds _
    show pathOfComps ((cs ++ [e.title]) ++ ds) = pathOfComps (cs ++ e.title :: ds)
    rw [List.append_assoc]
    rfl

/-- In a simple tree, the keys the crawl at an absolute base path inserts are
exactly the paths of the relative paths of its nodes, in insertion order. -/
theorem crawl_keys (ctx : Ctx) : ∀ a : AlbumJson, ∀ cs : List (List Char),
    SimpleTree a = true → goodComps cs →
    (crawlAlbum ctx a (pathOfComps cs)).map Prod.fst =
      (relPathsA a).map (fun ds => pathOfComps (cs ++ ds)) := by
  refine AlbumJson.indOn ?_
  intro i t c u subs photos IH cs hS hcs
  obtain ⟨hsubs, hph⟩ := simpleTree_parts i t c u subs photos hS
  rw [crawlAlbum, relPathsA, List.map_append, List.map_append, List.map_append,
    List.map_append]
  rw [crawlSubs_keys ctx subs cs hsubs hcs IH]
  congr 1
  congr 1
  · rw [List.map_map, List.map_map]
    apply List.map_congr_left
    intro e he
    show joinNorm (pathOfComps cs) (photoTitle e) = pathOfComps (cs ++ [photoTitle e])
    exact joinNorm_good cs (photoTitle e) hcs (hph e he)
  · show [pathOfComps cs] = [pathOfComps (cs ++ [])]
    rw [List.append_nil]

/-! ### Filtering the crawl by key -/

/-- Good components concatenate. -/
theorem goodComps_append (a b : List (List Char)) (ha : goodComps a)
    (hb : goodComps b) : goodComps (a ++ b) := by
  intro x hx
  rcases List.mem_append.mp hx with h | h
  · exact ha x h
  · exact hb x h

/-- A single good title is a good component list. -/
theorem goodComps_single (t : List Char) (h : goodTitle t) : goodComps [t] := by
  intro x hx
  rcases List.mem_cons.mp hx with h2 | h2
  · subst h2; exact h
  · exact absurd h2 (List.not_mem_nil x)

/-- The tail of a good component list is good. -/
theorem goodComps_tail (t : List Char) (rest : List (List Char))
    (h : goodComps (t :: rest)) : goodComps rest :=
  fun x hx => h x (List.mem_cons_of_mem t hx)

/-- A list with no entry under the key filters to nothing. -/
theorem filter_key_nil (l : List (List Char × Entity)) (K : List Char)
    (h : ∀ k ∈ l.map Prod.fst, k ≠ K) :
    l.filter (fun kv => kv.1 = K) = [] := by
  rw [List.filter_eq_nil_iff]
  intro kv hkv hp
  exact h kv.1 (List.mem_map_of_mem Prod.fst hkv) (of_decide_eq_true hp)

/-- Helper: filtering the subalbum loop's insertions by a key below the base. -/
theorem crawlSubs_filter (ctx : Ctx) : ∀ (subs : List AlbumJson)
    (cs : List (List Char)) (t : List Char) (rest : List (List Char)),
    SimpleSubs subs = true → goodComps cs → goodComps (t :: rest) →
    (∀ e ∈ subs, ∀ (cs' ds' : List (List Char)), SimpleTree e = true →
      goodComps cs' → goodComps ds' →
      (crawlAlbum ctx e (pathOfComps cs')).filter
          (fun kv => kv.1 = pathOfComps (cs' ++ ds')) =
        (entitiesAtRel ctx e ds' (pathOfComps (cs' ++ ds'))).map
          (fun v => (pathOfComps (cs' ++ ds'), v))) →
    (crawlSubs ctx subs (pathOfComps cs)).filter
        (fun kv => kv.1 = pathOfComps (cs ++ t :: rest)) =
      (entitiesAtRelSubs ctx subs t rest (pathOfComps (cs ++ t :: rest))).map
        (fun v => (pathOfComps (cs ++ t :: rest), v)) := by
  intro subs
  induction subs with
  | nil => intro cs t rest _ _ _ _; rfl
  | cons e rest' ih =>
    intro cs t rest hs hcs hds IH
    obtain ⟨hte, hse, hrest'⟩ := simpleSubs_cons e rest' hs
    have hcse : goodComps (cs ++ [e.title]) :=
      goodComps_append cs [e.title] hcs (goodComps_single e.title hte)
    have hjoin : joinNorm (pathOfComps cs) e.title = pathOfComps (cs ++ [e.title]) :=
      joinNorm_good cs e.title hcs hte
    rw [crawlSubs, List.filter_append, entitiesAtRelSubs, List.map_append]
    congr 1
    · by_cases het : e.title = t
      · rw [if_pos het]
        rw [hjoin]
        have hassoc : cs ++ t :: rest = (cs ++ [e.title]) ++ rest := by
          rw [List.append_assoc, ← het]
          rfl
        rw [hassoc]
        exact IH e (List.mem_cons_self e rest') (cs ++ [e.title]) rest hse
          hcse (goodComps_tail t rest hds)
      · rw [if_neg het]
        show _ = ([] : List (List Char × Entity))
        apply filter_key_nil
        intro k hk
        rw [hjoin, crawl_keys ctx e (cs ++ [e.title]) hse hcse] at hk
        obtain ⟨ds₀, hds₀, hkey⟩ := List.mem_map.mp hk
        rw [← hkey]
        intro hK
        have hgds₀ : goodComps ds₀ := relPaths_good e hse ds₀ hds₀
        have heq := pathOfComps_inj _ _
          (goodComps_append _ _ hcse hgds₀) (goodComps_append cs (t :: rest) hcs hds) hK
        rw [List.append_assoc] at heq
        have := List.append_cancel_left heq
        have : e.title = t := by
          have h2 : e.title :: ds₀ = t :: rest := by
            simpa using this
          exact (List.cons.inj h2).1
        exact het this
    · exact ih cs t rest hrest' hcs hds (fun x hx => IH x (List.mem_cons_of_mem e hx))

/-- Filtering the crawl's insertions by the key of a relative path yields
exactly the entities registered under that key, in insertion order. -/
theorem crawl_filter (ctx : Ctx) : ∀ a : AlbumJson, ∀ cs ds : List (List Char),
    SimpleTree a = true → goodComps cs → goodComps ds →
    (crawlAlbum ctx a (pathOfComps cs)).filter
        (fun kv => kv.1 = pathOfComps (cs ++ ds)) =
      (entitiesAtRel ctx a ds (pathOfComps (cs ++ ds))).map
        (fun v => (pathOfComps (cs ++ ds), v)) := by
  refine AlbumJson.indOn ?_
  intro i t0 c u subs photos IH cs ds hS hcs hds
  obtain ⟨hsubs, hph⟩ := simpleTree_parts i t0 c u subs photos hS
  have hkeys : ∀ e ∈ subs, ∀ cs' : List (List Char), SimpleTree e = true →
      goodComps cs' → (crawlAlbum ctx e (pathOfComps cs')).map Prod.fst =
        (relPathsA e).map (fun ds₀ => pathOfComps (cs' ++ ds₀)) :=
    fun e _ cs' hSe hcs' => crawl_keys ctx e cs' hSe hcs'
  rw [crawlAlbum, List.filter_append, List.filter_append]
  cases ds with
  | nil =>
    rw [List.append_nil]
    have h1 : (crawlSubs ctx subs (pathOfComps cs)).filter
        (fun kv => kv.1 = pathOfComps cs) = [] := by
      apply filter_key_nil
      intro k hk
      rw [crawlSubs_keys ctx subs cs hsubs hcs hkeys] at hk
      obtain ⟨ds₀, hds₀, hkey⟩ := List.mem_map.mp hk
      rw [← hkey]
      intro hK
      have hgds₀ : goodComps ds₀ :=
        relPathsSubs_good subs hsubs (fun e _ hSe => relPaths_good e hSe) ds₀ hds₀
      have heq := pathOfComps_inj _ _ (goodComps_append cs ds₀ hcs hgds₀) hcs hK
      exact relPathsSubs_ne_nil subs ds₀ hds₀ (List.append_right_eq_self.mp heq)
    have h2 : ((photos.map (fun e => (joinNorm (pathOfComps cs) (photoTitle e),
        Entity.image (mkImage ctx e)))).filter
          (fun kv => kv.1 = pathOfComps cs)) = [] := by
      apply filter_key_nil
      intro k hk
      obtain ⟨kv, hkv, hkey⟩ := List.mem_map.mp hk
      obtain ⟨e, he, hkv2⟩ := List.mem_map.mp hkv
      rw [← hkey, ← hkv2]
      show joinNorm (pathOfComps cs) (photoTitle e) ≠ pathOfComps cs
      rw [joinNorm_good cs (photoTitle e) hcs (hph e he)]
      intro hK
      have heq := pathOfComps_inj _ _
        (goodComps_append cs [photoTitle e] hcs (goodComps_single _ (hph e he))) hcs hK
      have := List.append_right_eq_self.mp heq
      exact List.cons_ne_nil _ _ this
    rw [h1, h2, entitiesAtRel]
    simp only [List.nil_append, List.map]
    rw [List.filter_cons]
    simp
  | cons t rest =>
    have hself : ([(pathOfComps cs,
        Entity.album (mkAlbumData ctx (AlbumJson.mk i t0 c u subs photos)
          (pathOfComps cs)))].filter
        (fun kv => kv.1 = pathOfComps (cs ++ t :: rest))) = [] := by
      apply filter_key_nil
      intro k hk
      rcases List.mem_cons.mp hk with h | h
      · rw [h]
        intro hK
        have heq := pathOfComps_inj _ _ hcs
          (goodComps_append cs (t :: rest) hcs hds) hK
        exact List.cons_ne_nil t rest (List.self_eq_append_right.mp heq)
      · exact absurd h (List.not_mem_nil k)
    rw [hself, List.append_nil, entitiesAtRel, List.map_append]
    congr 1
    · exact crawlSubs_filter ctx subs cs t rest hsubs hcs hds IH
    · by_cases hrest : rest = []
      · subst hrest
        rw [if_pos rfl]
        rw [List.filter_map]
        have hpt : ∀ e ∈ photos,
            ((fun kv => decide (kv.1 = pathOfComps (cs ++ [t]))) ∘
              (fun e => (joinNorm (pathOfComps cs) (photoTitle e),
                Entity.image (mkImage ctx e)))) e =
              (fun e => decide (photoTitle e = t)) e := by
          intro e he
          show decide _ = decide _
          apply decide_eq_decide.mpr
          show joinNorm (pathOfComps cs) (photoTitle e) = pathOfComps (cs ++ [t]) ↔
            photoTitle e = t
          rw [joinNorm_good cs (photoTitle e) hcs (hph e he)]
          constructor
          · intro hK
            have heq := pathOfComps_inj _ _
              (goodComps_append cs [photoTitle e] hcs (goodComps_single _ (hph e he)))
              (goodComps_append cs [t] hcs
                (goodComps_single t (hds t (List.mem_cons_self t [])))) hK
            have h2 := List.append_cancel_left heq
            exact (List.cons.inj h2).1
          · intro hK
            rw [hK]
        rw [List.filter_congr hpt]
        rw [List.map_map]
        apply List.map_congr_left
        intro e he
        obtain ⟨hemem, het⟩ := List.mem_filter.mp he
        have het' : photoTitle e = t := of_decide_eq_true het
        show (joinNorm (pathOfComps cs) (photoTitle e), Entity.image (mkImage ctx e)) = _
        rw [joinNorm_good cs (photoTitle e) hcs (hph e hemem), het']
        rfl
      · rw [if_neg hrest]
        show _ = ([] : List Entity).map _
        rw [List.map_nil]
        apply filter_key_nil
        intro k hk
        obtain ⟨kv, hkv, hkey⟩ := List.mem_map.mp hk
        obtain ⟨e, he, hkv2⟩ := List.mem_map.mp hkv
        rw [← hkey, ← hkv2]
        show joinNorm (pathOfComps cs) (photoTitle e) ≠ _
        rw [joinNorm_good cs (photoTitle e) hcs (hph e he)]
        intro hK
        have heq := pathOfComps_inj _ _
          (goodComps_append cs [photoTitle e] hcs (goodComps_single _ (hph e he)))
          (goodComps_append cs (t :: rest) hcs hds) hK
        have h2 := List.append_cancel_left heq
        exact hrest ((List.cons.inj h2).2).symm

/-! ### Last-write-wins lookups over the crawl -/

/-- A key resolves in the final dictionary exactly when some insertion used
it. -/
theorem finalLookup_isSome_iff (ins : List (List Char × Entity)) (k : List Char) :
    (finalLookup ins k).isSome = true ↔ k ∈ ins.map Prod.fst := by
  unfold finalLookup
  rw [Option.isSome_map']
  constructor
  · intro h
    cases hx : (ins.filter (fun kv => kv.1 = k)).getLast? with
    | none =>
      rw [hx] at h
      simp at h
    | some x =>
      have hmem := List.mem_of_getLast?_eq_some hx
      obtain ⟨hins, hpred⟩ := List.mem_filter.mp hmem
      have hxk : x.1 = k := of_decide_eq_true hpred
      rw [← hxk]
      exact List.mem_map_of_mem Prod.fst hins
  · intro hk
    obtain ⟨kv, hkv, hfst⟩ := List.mem_map.mp hk
    have hne : ins.filter (fun kv => kv.1 = k) ≠ [] := by
      intro hnil
      rw [List.filter_eq_nil_iff] at hnil
      exact hnil kv hkv (decide_eq_true hfst)
    rw [List.getLast?_isSome]
    exact hne

/-- In a simple tree, the final dictionary value under the key of a relative
path is the last entity registered under it. -/
theorem finalLookup_crawl (ctx : Ctx) (a : AlbumJson) (cs ds : List (List Char))
    (hS : SimpleTree a = true) (hcs : goodComps cs) (hds : goodComps ds) :
    finalLookup (crawlAlbum ctx a (pathOfComps cs)) (pathOfComps (cs ++ ds)) =
      (entitiesAtRel ctx a ds (pathOfComps (cs ++ ds))).getLast? := by
  unfold finalLookup
  rw [crawl_filter ctx a cs ds hS hcs hds]
  rw [List.getLast?_map]
  cases (entitiesAtRel ctx a ds (pathOfComps (cs ++ ds))).getLast? with
  | none => rfl
  | some v => rfl

/-! ### Members of `entitiesAtRel` -/

/-- The album itself is among its relative paths. -/
theorem nil_mem_relPaths (a : AlbumJson) : [] ∈ relPathsA a := by
  cases a with
  | mk i t c u subs photos =>
    rw [relPathsA]
    exact List.mem_append_right _ (List.mem_cons_self [] [])

/-- Lifting membership into the subalbum relative-path list. -/
theorem mem_relPathsSubs : ∀ (subs : List AlbumJson), ∀ e ∈ subs,
    ∀ x ∈ relPathsA e, e.title :: x ∈ relPathsSubs subs := by
  intro subs
  induction subs with
  | nil => intro e he; exact absurd he (List.not_mem_nil e)
  | cons y ys ih =>
    intro e he x hx
    rw [relPathsSubs]
    rcases List.mem_cons.mp he with h | h
    · subst h
      exact List.mem_append_left _ (List.mem_map_of_mem _ hx)
    · exact List.mem_append_right _ (ih e h x hx)

/-- Lifting membership into the subalbum photo-path list. -/
theorem mem_photoRelsSubs : ∀ (subs : List AlbumJson), ∀ e ∈ subs,
    ∀ x ∈ photoRels e, e.title :: x ∈ photoRelsSubs subs := by
  intro subs
  induction subs with
  | nil => intro e he; exact absurd he (List.not_mem_nil e)
  | cons y ys ih =>
    intro e he x hx
    rw [photoRelsSubs]
    rcases List.mem_cons.mp he with h | h
    · subst h
      exact List.mem_append_left _ (List.mem_map_of_mem _ hx)
    · exact List.mem_append_right _ (ih e h x hx)

/-- Decomposing membership in the subalbum part of `entitiesAtRel`. -/
theorem entitiesAtRelSubs_mem_cases (ctx : Ctx) : ∀ (subs : List AlbumJson)
    (t : List Char) (rest : List (List Char)) (p : List Char) (v : Entity),
    v ∈ entitiesAtRelSubs ctx subs t rest p →
    ∃ e ∈ subs, e.title = t ∧ v ∈ entitiesAtRel ctx e rest p := by
  intro subs
  induction subs with
  | nil => intro t rest p v hv; exact absurd hv (List.not_mem_nil v)
  | cons y ys ih =>
    intro t rest p v hv
    rw [entitiesAtRelSubs] at hv
    rcases List.mem_append.mp hv with h | h
    · by_cases hyt : y.title = t
      · rw [if_pos hyt] at h
        exact ⟨y, List.mem_cons_self y ys, hyt, h⟩
      · rw [if_neg hyt] at h
        exact absurd h (List.not_mem_nil v)
    · obtain ⟨e, he, het, hve⟩ := ih t rest p v h
      exact ⟨e, List.mem_cons_of_mem y he, het, hve⟩

/-- Building membership in the subalbum part of `entitiesAtRel`. -/
theorem entitiesAtRelSubs_mem_intro (ctx : Ctx) : ∀ (subs : List AlbumJson),
    ∀ e ∈ subs, ∀ (rest : List (List Char)) (p : List Char) (v : Entity),
    v ∈ entitiesAtRel ctx e rest p →
    v ∈ entitiesAtRelSubs ctx subs e.title rest p := by
  intro subs
  induction subs with
  | nil => intro e he; exact absurd he (List.not_mem_nil e)
  | cons y ys ih =>
    intro e he rest p v hv
    rw [entitiesAtRelSubs]
    rcases List.mem_cons.mp he with h | h
    · subst h
      rw [if_pos rfl]
      exact List.mem_append_left _ hv
    · exact List.mem_append_right _ (ih e h rest p v hv)

/-- Decomposing membership in `entitiesAtRel` at a non-empty relative path. -/
theorem entitiesAtRel_cons_cases (ctx : Ctx) (i : Int) (t0 : List Char) (c u : Int)
    (subs : List AlbumJson) (photos : List PhotoJson) (t : List Char)
    (rest : List (List Char)) (p : List Char) (v : Entity)
    (hv : v ∈ entitiesAtRel ctx (.mk i t0 c u subs photos) (t :: rest) p) :
    (∃ e ∈ subs, e.title = t ∧ v ∈ entitiesAtRel ctx e rest p) ∨
    (rest = [] ∧ ∃ e ∈ photos, photoTitle e = t ∧ v = .image (mkImage ctx e)) := by
  rw [entitiesAtRel] at hv
  rcases List.mem_append.mp hv with h | h
  · exact Or.inl (entitiesAtRelSubs_mem_cases ctx subs t rest p v h)
  · right
    by_cases hrest : rest = []
    · rw [if_pos hrest] at h
      obtain ⟨e, hef, hev⟩ := List.mem_map.mp h
      obtain ⟨he, het⟩ := List.mem_filter.mp hef
      exact ⟨hrest, e, he, of_decide_eq_true het, hev.symm⟩
    · rw [if_neg hrest] at h
      exact absurd h (List.not_mem_nil v)

/-- The title of every entity registered under a non-empty relative path is
the path's last component. -/
theorem entitiesAtRel_title (ctx : Ctx) : ∀ a : AlbumJson, ∀ (ds : List (List Char))
    (p : List Char), ds ≠ [] → ∀ v ∈ entitiesAtRel ctx a ds p,
    ds.getLast? = some v.title := by
  refine AlbumJson.indOn ?_
  intro i t0 c u subs photos IH ds p hds v hv
  cases ds with
  | nil => exact absurd rfl hds
  | cons t rest =>
    rcases entitiesAtRel_cons_cases ctx i t0 c u subs photos t rest p v hv with
      ⟨e, he, het, hve⟩ | ⟨hrest, e, he, het, hve⟩
    · cases hrest : rest with
      | nil =>
        subst hrest
        rw [entitiesAtRel] at hve
        rcases List.mem_cons.mp hve with h | h
        · rw [h]
          show some t = some e.title
          rw [het]
        · exact absurd h (List.not_mem_nil v)
      | cons d rest' =>
        subst hrest
        rw [List.getLast?_cons_cons]
        exact IH e he (d :: rest') p (List.cons_ne_nil d rest') v hve
    · subst hrest
      rw [hve]
      show some t = some (photoTitle e)
      rw [het]

/-- Photo entities are only registered under photo relative paths. -/
theorem entitiesAtRel_image_mem (ctx : Ctx) : ∀ a : AlbumJson,
    ∀ (ds : List (List Char)) (p : List Char) (idata : ImageData),
    Entity.image idata ∈ entitiesAtRel ctx a ds p → ds ∈ photoRels a := by
  refine AlbumJson.indOn ?_
  intro i t0 c u subs photos IH ds p idata hv
  cases ds with
  | nil =>
    rw [entitiesAtRel] at hv
    rcases List.mem_cons.mp hv with h | h
    · exact absurd h (by intro h2; cases h2)
    · exact absurd h (List.not_mem_nil _)
  | cons t rest =>
    rw [photoRels]
    rcases entitiesAtRel_cons_cases ctx i t0 c u subs photos t rest p _ hv with
      ⟨e, he, het, hve⟩ | ⟨hrest, e, he, het, hve⟩
    · have hrest := IH e he rest p idata hve
      refine List.mem_append_left _ ?_
      rw [← het]
      exact mem_photoRelsSubs subs e he rest hrest
    · subst hrest
      refine List.mem_append_right _ ?_
      rw [← het]
      exact List.mem_map_of_mem _ he

/-- Decomposing membership in the subalbum album-path list. -/
theorem albumRelsSubs_cases : ∀ (subs : List AlbumJson) (ds : List (List Char)),
    ds ∈ albumRelsSubs subs → ∃ e ∈ subs, ∃ x ∈ albumRels e, ds = e.title :: x := by
  intro subs
  induction subs with
  | nil => intro ds h; exact absurd h (List.not_mem_nil ds)
  | cons y ys ih =>
    intro ds h
    rw [albumRelsSubs] at h
    rcases List.mem_append.mp h with h2 | h2
    · obtain ⟨x, hx, hxe⟩ := List.mem_map.mp h2
      exact ⟨y, List.mem_cons_self y ys, x, hx, hxe.symm⟩
    · obtain ⟨e, he, x, hx, hde⟩ := ih ds h2
      exact ⟨e, List.mem_cons_of_mem y he, x, hx, hde⟩

/-- Every album relative path has an album entity registered under it. -/
theorem entitiesAtRel_album_exists (ctx : Ctx) : ∀ a : AlbumJson,
    ∀ (ds : List (List Char)) (p : List Char), ds ∈ albumRels a →
    ∃ ad, Entity.album ad ∈ entitiesAtRel ctx a ds p := by
  refine AlbumJson.indOn ?_
  intro i t0 c u subs photos IH ds p hds
  rw [albumRels] at hds
  rcases List.mem_append.mp hds with h | h
  · obtain ⟨e, he, x, hx, hde⟩ := albumRelsSubs_cases subs ds h
    subst hde
    obtain ⟨ad, had⟩ := IH e he x p hx
    refine ⟨ad, ?_⟩
    rw [entitiesAtRel]
    exact List.mem_append_left _ (entitiesAtRelSubs_mem_intro ctx subs e he x p _ had)
  · have : ds = [] := by simpa using h
    subst this
    exact ⟨mkAlbumData ctx (.mk i t0 c u subs photos) p,
      List.mem_cons_self _ _⟩

/-- The recorded children of any album entity registered by the crawl are the
paths of one-component extensions of its relative path, and those extensions
are again relative paths of the tree. -/
theorem entitiesAtRel_album_children (ctx : Ctx) : ∀ a : AlbumJson,
    ∀ (cs ds : List (List Char)), SimpleTree a = true → goodComps cs →
    goodComps ds →
    ∀ ad, Entity.album ad ∈ entitiesAtRel ctx a ds (pathOfComps (cs ++ ds)) →
    ∀ cp ∈ ad.childrenPath, ∃ t', goodTitle t' ∧
      cp = pathOfComps (cs ++ (ds ++ [t'])) ∧ (ds ++ [t']) ∈ relPathsA a := by
  refine AlbumJson.indOn ?_
  intro i t0 c u subs photos IH cs ds hS hcs hds ad had cp hcp
  obtain ⟨hsubs, hph⟩ := simpleTree_parts i t0 c u subs photos hS
  cases ds with
  | nil =>
    rw [entitiesAtRel] at had
    rcases List.mem_cons.mp had with h | h
    · have had2 : ad = mkAlbumData ctx (.mk i t0 c u subs photos)
          (pathOfComps (cs ++ [])) := by
        injection h
      rw [List.append_nil] at had2
      rw [had2] at hcp
      have hcp2 : cp ∈ childrenPaths (.mk i t0 c u subs photos) (pathOfComps cs) := hcp
      unfold childrenPaths at hcp2
      rcases List.mem_append.mp hcp2 with h2 | h2
      · obtain ⟨e, he, hee⟩ := List.mem_map.mp h2
        have hte : goodTitle e.title := (simpleSubs_mem subs hsubs e he).1
        refine ⟨e.title, hte, ?_, ?_⟩
        · rw [← hee]
          show joinNorm (pathOfComps cs) e.title = _
          rw [joinNorm_good cs e.title hcs hte]
          rfl
        · rw [relPathsA]
          refine List.mem_append_left _ (List.mem_append_left _ ?_)
          show [] ++ [AlbumJson.title e] ∈ relPathsSubs subs
          exact mem_relPathsSubs subs e he [] (nil_mem_relPaths e)
      · obtain ⟨e, he, hee⟩ := List.mem_map.mp h2
        have hte : goodTitle (photoTitle e) := hph e he
        refine ⟨photoTitle e, hte, ?_, ?_⟩
        · rw [← hee]
          show joinNorm (pathOfComps cs) (photoTitle e) = _
          rw [joinNorm_good cs (photoTitle e) hcs hte]
          rfl
        · rw [relPathsA]
          refine List.mem_append_left _ (List.mem_append_right _ ?_)
          show [] ++ [photoTitle e] ∈ photos.map (fun e => [photoTitle e])
          exact List.mem_map_of_mem _ he
    · exact absurd h (List.not_mem_nil _)
  | cons t rest =>
    rcases entitiesAtRel_cons_cases ctx i t0 c u subs photos t rest _ _ had with
      ⟨e, he, het, hve⟩ | ⟨hrest, e, he, het, hve⟩
    · obtain ⟨hte, hse⟩ := simpleSubs_mem subs hsubs e he
      have hassoc : cs ++ t :: rest = (cs ++ [t]) ++ rest := by
        rw [List.append_assoc]
        rfl
      rw [hassoc] at hve
      have hgt : goodTitle t := hds t (List.mem_cons_self t rest)
      have hcs' : goodComps (cs ++ [t]) :=
        goodComps_append cs [t] hcs (goodComps_single t hgt)
      obtain ⟨t', hgt', hcp', hmem'⟩ := IH e he (cs ++ [t]) rest hse hcs'
        (goodComps_tail t rest hds) ad hve cp hcp
      refine ⟨t', hgt', ?_, ?_⟩
      · rw [hcp']
        congr 1
        simp [List.append_assoc]
      · rw [relPathsA]
        refine List.mem_append_left _ (List.mem_append_left _ ?_)
        show t :: (rest ++ [t']) ∈ relPathsSubs subs
        rw [← het]
        exact mem_relPathsSubs subs e he (rest ++ [t']) hmem'
    · exact absurd hve (by intro h2; cases h2)

/-- A subalbum's whole crawl segment sits inside the subalbum loop's output. -/
theorem crawlSubs_mem_of (ctx : Ctx) (p : List Char) : ∀ (subs : List AlbumJson),
    ∀ e ∈ subs, ∀ kv ∈ crawlAlbum ctx e (joinNorm p e.title),
    kv ∈ crawlSubs ctx subs p := by
  intro subs
  induction subs with
  | nil => intro e he; exact absurd he (List.not_mem_nil e)
  | cons y ys ih =>
    intro e he kv hkv
    rw [crawlSubs]
    rcases List.mem_cons.mp he with h | h
    · subst h
      exact List.mem_append_left _ hkv
    · exact List.mem_append_right _ (ih e h kv hkv)

/-- When every recorded child is indexed, readdir succeeds and yields the
direntry of each child's indexed entity. -/
theorem readdirEntries_ok (objects : Objects) : ∀ (children : List (List Char)),
    (∀ cp ∈ children, (objects cp).isSome = true) →
    ∃ es, readdirEntries objects children = .ok es ∧
      ∀ ent ∈ es, ∃ cp ∈ children, ∃ v, objects cp = some v ∧ ent = direntOf v := by
  intro children
  induction children with
  | nil => intro _; exact ⟨[], rfl, fun ent hent => absurd hent (List.not_mem_nil ent)⟩
  | cons cp rest ih =>
    intro hall
    obtain ⟨v, hv⟩ := Option.isSome_iff_exists.mp
      (hall cp (List.mem_cons_self cp rest))
    obtain ⟨es, hes, hmem⟩ := ih (fun x hx => hall x (List.mem_cons_of_mem cp hx))
    refine ⟨direntOf v :: es, ?_, ?_⟩
    · rw [readdirEntries, hv, hes]
    · intro ent hent
      rcases List.mem_cons.mp hent with h | h
      · exact ⟨cp, List.mem_cons_self cp rest, v, hv, h⟩
      · obtain ⟨cp', hcp', v', hv', hent'⟩ := hmem ent h
        exact ⟨cp', List.mem_cons_of_mem cp hcp', v', hv', hent'⟩

/-- Claim C6 (amended): provided every title in the tree is a plain path
component and no photo node shares its relative path with an album node,
every indexed key's proper ancestor prefixes are indexed and map to albums;
and unconditionally, the crawl registers each album only after all of its
descendants (each subalbum's whole subtree and every photo) are registered. -/
theorem claim_C6_amended (ctx : Ctx) (a : AlbumJson)
    (hS : SimpleTree a = true)
    (hD : ∀ ds ∈ photoRels a, ds ∉ albumRels a) :
    (∀ k : List Char,
      (finalLookup (crawlAlbum ctx a (pathOfComps [])) k).isSome = true →
      ∀ anc ∈ properAncestors k, ∃ ad,
        finalLookup (crawlAlbum ctx a (pathOfComps [])) anc =
          some (Entity.album ad)) ∧
    (∀ (b : AlbumJson) (p : List Char), ∃ l,
      crawlAlbum ctx b p = l ++ [(p, Entity.album (mkAlbumData ctx b p))] ∧
      (∀ e ∈ b.subalbums, ∀ kv ∈ crawlAlbum ctx e (joinNorm p e.title),
        kv.1 ∈ l.map Prod.fst) ∧
      (∀ ph ∈ b.photos, joinNorm p (photoTitle ph) ∈ l.map Prod.fst)) := by
  have hnilg : goodComps [] := fun x hx => absurd hx (List.not_mem_nil x)
  constructor
  · intro k hk anc hanc
    have hkeys := (finalLookup_isSome_iff _ k).mp hk
    rw [crawl_keys ctx a [] hS hnilg] at hkeys
    obtain ⟨ds, hds, hkey⟩ := List.mem_map.mp hkeys
    have hgds : goodComps ds := relPaths_good a hS ds hds
    rw [← hkey] at hanc
    rw [List.nil_append] at hanc
    rw [properAncestors_pathOfComps ds hgds] at hanc
    obtain ⟨i, hi, hanc'⟩ := List.mem_map.mp hanc
    have hilt : i < ds.length := List.mem_range.mp hi
    have htake_mem : ds.take i ∈ albumRels a := relPaths_take_mem a ds hds i hilt
    have hg' : goodComps (ds.take i) := fun x hx => hgds x (List.mem_of_mem_take hx)
    have hlook := finalLookup_crawl ctx a [] (ds.take i) hS hnilg hg'
    obtain ⟨ad0, had0⟩ := entitiesAtRel_album_exists ctx a (ds.take i)
      (pathOfComps ([] ++ ds.take i)) htake_mem
    have hne : entitiesAtRel ctx a (ds.take i) (pathOfComps ([] ++ ds.take i)) ≠ [] := by
      intro h0
      rw [h0] at had0
      exact absurd had0 (List.not_mem_nil _)
    obtain ⟨v, hv⟩ := Option.isSome_iff_exists.mp (List.getLast?_isSome.mpr hne)
    have hvmem := List.mem_of_getLast?_eq_some hv
    cases v with
    | image idata =>
      have hphoto := entitiesAtRel_image_mem ctx a _ _ idata hvmem
      exact absurd htake_mem (hD _ hphoto)
    | album ad =>
      refine ⟨ad, ?_⟩
      rw [← hanc']
      exact hlook.trans hv
  · intro b p
    cases b with
    | mk i t c u subs photos =>
      refine ⟨crawlSubs ctx subs p ++
        photos.map (fun e => (joinNorm p (photoTitle e), Entity.image (mkImage ctx e))),
        ?_, ?_, ?_⟩
      · rw [crawlAlbum, List.append_assoc]
      · intro e he kv hkv
        have hsub : kv ∈ crawlSubs ctx subs p := crawlSubs_mem_of ctx p subs e he kv hkv
        exact List.mem_map_of_mem Prod.fst (List.mem_append_left _ hsub)
      · intro ph hphm
        have h1 : (joinNorm p (photoTitle ph), Entity.image (mkImage ctx ph)) ∈
            photos.map (fun e =>
              (joinNorm p (photoTitle e), Entity.image (mkImage ctx e))) :=
          List.mem_map_of_mem _ hphm
        exact List.mem_map_of_mem Prod.fst (List.mem_append_right _ h1)

/-- Witness for the amended claim C6: in the crawled two-level tree every
ancestor of the photo key `/x/p` resolves to an album. -/
theorem claim_C6_witness :
    SimpleTree treeGood = true ∧
    (∀ ds ∈ photoRels treeGood, ds ∉ albumRels treeGood) ∧
    ∀ anc ∈ properAncestors ['/', 'x', '/', 'p'],
      ∃ ad, finalLookup (crawlAlbum ctxD treeGood (pathOfComps [])) anc =
        some (Entity.album ad) :=
  ⟨by decide, by decide,
    (claim_C6_amended ctxD treeGood (by decide) (by decide)).1
      ['/', 'x', '/', 'p'] (by decide)⟩

/-- Claim C7 (amended): provided every title in the tree is a plain path
component, listing any indexed album succeeds, and joining the parent path
with each yielded entry name gives a path whose attributes resolve. -/
theorem claim_C7_amended (ctx : Ctx) (a : AlbumJson) (hS : SimpleTree a = true) :
    ∀ (parent : List Char) (ad : AlbumData),
      finalLookup (crawlAlbum ctx a (pathOfComps [])) parent =
        some (Entity.album ad) →
      ∃ es, fsReaddir (finalLookup (crawlAlbum ctx a (pathOfComps []))) parent =
          .ok es ∧
        ∀ ent ∈ es, ∃ st,
          fsGetattr (finalLookup (crawlAlbum ctx a (pathOfComps [])))
            (joinNorm parent ent.1) = .ok st := by
  have hnilg : goodComps [] := fun x hx => absurd hx (List.not_mem_nil x)
  intro parent ad hparent
  have hk : (finalLookup (crawlAlbum ctx a (pathOfComps [])) parent).isSome = true := by
    rw [hparent]
    rfl
  have hkeys := (finalLookup_isSome_iff _ parent).mp hk
  rw [crawl_keys ctx a [] hS hnilg] at hkeys
  obtain ⟨ds, hds, hkey⟩ := List.mem_map.mp hkeys
  have hgds : goodComps ds := relPaths_good a hS ds hds
  subst hkey
  have hlook := finalLookup_crawl ctx a [] ds hS hnilg hgds
  have hga : (entitiesAtRel ctx a ds (pathOfComps ([] ++ ds))).getLast? =
      some (Entity.album ad) := hlook.symm.trans hparent
  have hadmem := List.mem_of_getLast?_eq_some hga
  have hchildren := entitiesAtRel_album_children ctx a [] ds hS hnilg hgds ad hadmem
  have hallsome : ∀ cp ∈ ad.childrenPath,
      ((finalLookup (crawlAlbum ctx a (pathOfComps []))) cp).isSome = true := by
    intro cp hcp
    obtain ⟨t', hgt', hcp', hmem'⟩ := hchildren cp hcp
    rw [hcp']
    rw [finalLookup_isSome_iff]
    rw [crawl_keys ctx a [] hS hnilg]
    exact List.mem_map_of_mem _ hmem'
  obtain ⟨es, hes, hmem⟩ := readdirEntries_ok
    (finalLookup (crawlAlbum ctx a (pathOfComps []))) ad.childrenPath hallsome
  refine ⟨es, ?_, ?_⟩
  · unfold fsReaddir
    rw [hparent]
    exact hes
  · intro ent hent
    obtain ⟨cp, hcp, v, hvcp, hentv⟩ := hmem ent hent
    obtain ⟨t', hgt', hcp', hmem'⟩ := hchildren cp hcp
    have hvrel : v ∈ entitiesAtRel ctx a (ds ++ [t'])
        (pathOfComps ([] ++ (ds ++ [t']))) := by
      have hg2 : goodComps (ds ++ [t']) :=
        goodComps_append ds [t'] hgds (goodComps_single t' hgt')
      have hlook2 := finalLookup_crawl ctx a [] (ds ++ [t']) hS hnilg hg2
      have : (entitiesAtRel ctx a (ds ++ [t'])
          (pathOfComps ([] ++ (ds ++ [t'])))).getLast? = some v := by
        rw [← hlook2, ← hcp']
        exact hvcp
      exact List.mem_of_getLast?_eq_some this
    have htitle : (ds ++ [t']).getLast? = some v.title :=
      entitiesAtRel_title ctx a (ds ++ [t']) _ (by simp) v hvrel
    have ht' : v.title = t' := by
      rw [List.getLast?_concat] at htitle
      exact (Option.some.inj htitle).symm
    have hent1 : ent.1 = t' := by
      rw [hentv]
      show v.title = t'
      exact ht'
    refine ⟨v.stats, ?_⟩
    rw [hent1]
    have hjoin : joinNorm (pathOfComps ([] ++ ds)) t' = pathOfComps (([] ++ ds) ++ [t']) :=
      joinNorm_good ([] ++ ds) t' hgds hgt'
    rw [hjoin]
    unfold fsGetattr
    have hfin : finalLookup (crawlAlbum ctx a (pathOfComps []))
        (pathOfComps (([] ++ ds) ++ [t'])) = some v := hcp' ▸ hvcp
    rw [hfin]

/-- Witness for the amended claim C7: listing `/x` in the crawled two-level
tree yields entries whose joined paths all resolve. -/
theorem claim_C7_witness :
    ∃ es, fsReaddir (finalLookup (crawlAlbum ctxD treeGood (pathOfComps [])))
        ['/', 'x'] = .ok es ∧
      ∀ ent ∈ es, ∃ st,
        fsGetattr (finalLookup (crawlAlbum ctxD treeGood (pathOfComps [])))
          (joinNorm ['/', 'x'] ent.1) = .ok st :=
  claim_C7_amended ctxD treeGood (by decide) ['/', 'x']
    (mkAlbumData ctxD (.mk 2 ['x'] 0 0 [] [phP]) ['/', 'x']) (by decide)

/-! ### Duplicate sibling titles -/

/-- The recorded child paths are the joins of the children's names, in crawl
order. -/
theorem childrenPaths_eq (a : AlbumJson) (p : List Char) :
    childrenPaths a p = (childrenOf a).map (fun ch => joinNorm p (childTitle ch)) := by
  cases a with
  | mk i t c u subs photos =>
    show childrenPaths (AlbumJson.mk i t c u subs photos) p = _
    unfold childrenPaths childrenOf
    rw [List.map_append, List.map_map, List.map_map]
    rfl

/-- Every child of a simple tree's root has a good name. -/
theorem childrenOf_good (a : AlbumJson) (hS : SimpleTree a = true) :
    ∀ ch ∈ childrenOf a, goodTitle (childTitle ch) := by
  cases a with
  | mk i t c u subs photos =>
    obtain ⟨hsubs, hph⟩ := simpleTree_parts i t c u subs photos hS
    intro ch hch
    unfold childrenOf at hch
    rcases List.mem_append.mp hch with h | h
    · obtain ⟨e, he, hee⟩ := List.mem_map.mp h
      rw [← hee]
      exact (simpleSubs_mem subs hsubs e he).1
    · obtain ⟨e, he, hee⟩ := List.mem_map.mp h
      rw [← hee]
      exact hph e he

/-- Every direct child contributes its one-component relative path. -/
theorem child_mem_relPaths (a : AlbumJson) : ∀ ch ∈ childrenOf a,
    [childTitle ch] ∈ relPathsA a := by
  cases a with
  | mk i t c u subs photos =>
    intro ch hch
    unfold childrenOf at hch
    rw [relPathsA]
    rcases List.mem_append.mp hch with h | h
    · obtain ⟨e, he, hee⟩ := List.mem_map.mp h
      rw [← hee]
      refine List.mem_append_left _ (List.mem_append_left _ ?_)
      show AlbumJson.title e :: [] ∈ relPathsSubs subs
      exact mem_relPathsSubs subs e he [] (nil_mem_relPaths e)
    · obtain ⟨e, he, hee⟩ := List.mem_map.mp h
      rw [← hee]
      exact List.mem_append_left _
        (List.mem_append_right _ (List.mem_map_of_mem _ he))

/-- The subalbum part of the entities under a one-component relative path. -/
theorem entitiesAtRelSubs_top (ctx : Ctx) (t : List Char) (p : List Char) :
    ∀ subs : List AlbumJson, entitiesAtRelSubs ctx subs t [] p =
      (subs.filter (fun e => e.title = t)).map
        (fun e => Entity.album (mkAlbumData ctx e p)) := by
  intro subs
  induction subs with
  | nil => rfl
  | cons y ys ih =>
    rw [entitiesAtRelSubs, ih, List.filter_cons]
    by_cases hyt : y.title = t
    · rw [if_pos hyt, if_pos (decide_eq_true hyt), entitiesAtRel]
      rfl
    · rw [if_neg hyt, if_neg (by simpa using hyt)]
      rfl

/-- The entities under a one-component relative path are the matching
children, in crawl order. -/
theorem entitiesAtRel_top (ctx : Ctx) (i : Int) (t0 : List Char) (c u : Int)
    (subs : List AlbumJson) (photos : List PhotoJson) (t : List Char)
    (p : List Char) :
    entitiesAtRel ctx (.mk i t0 c u subs photos) [t] p =
      ((childrenOf (.mk i t0 c u subs photos)).filter
        (fun ch => childTitle ch = t)).map (topEntity ctx p) := by
  rw [entitiesAtRel, if_pos rfl, entitiesAtRelSubs_top]
  unfold childrenOf
  rw [List.filter_append, List.filter_map, List.filter_map, List.map_append,
    List.map_map, List.map_map]
  rfl

/-- On a matching child, the fixed-key entity is the crawl's child entity. -/
theorem topEntity_eq_childEntity (ctx : Ctx) (P t : List Char)
    (ch : AlbumJson ⊕ PhotoJson) (ht : childTitle ch = t) :
    topEntity ctx (joinNorm P t) ch = childEntity ctx P ch := by
  cases ch with
  | inl e =>
    show Entity.album (mkAlbumData ctx e (joinNorm P t)) =
      Entity.album (mkAlbumData ctx e (joinNorm P e.title))
    rw [show AlbumJson.title e = t from ht]
  | inr e => rfl

/-- The direntry of a matching child's entity. -/
theorem direntOf_childEntity (ctx : Ctx) (P t : List Char)
    (ch : AlbumJson ⊕ PhotoJson) (ht : childTitle ch = t) :
    direntOf (childEntity ctx P ch) = (t, childKind ch) := by
  cases ch with
  | inl e =>
    show (AlbumJson.title e, S_IFDIR) = (t, S_IFDIR)
    rw [show AlbumJson.title e = t from ht]
  | inr e =>
    show (photoTitle e, S_IFREG) = (t, S_IFREG)
    rw [show photoTitle e = t from ht]

/-- When every recorded child is indexed, readdir yields exactly the per-key
direntries, in order. -/
theorem readdirEntries_map (objects : Objects) : ∀ (children : List (List Char)),
    (∀ cp ∈ children, (objects cp).isSome = true) →
    readdirEntries objects children = .ok (children.map (direntAt objects)) := by
  intro children
  induction children with
  | nil => intro _; rfl
  | cons cp rest ih =>
    intro hall
    obtain ⟨v, hv⟩ := Option.isSome_iff_exists.mp
      (hall cp (List.mem_cons_self cp rest))
    rw [readdirEntries, hv, ih (fun x hx => hall x (List.mem_cons_of_mem cp hx))]
    show Except.ok _ = Except.ok _
    rw [List.map_cons]
    show _ = Except.ok (direntAt objects cp :: _)
    unfold direntAt
    rw [hv]

/-- The survivor under a one-component key exists and bears that component
as its name. -/
theorem finalLookup_child_title (ctx : Ctx) (a : AlbumJson) (cs : List (List Char))
    (s : List Char) (hS : SimpleTree a = true) (hcs : goodComps cs)
    (hgs : goodTitle s) (hmem : [s] ∈ relPathsA a) :
    ∃ v : Entity, finalLookup (crawlAlbum ctx a (pathOfComps cs))
        (joinNorm (pathOfComps cs) s) = some v ∧ v.title = s := by
  rw [joinNorm_good cs s hcs hgs]
  have hlook := finalLookup_crawl ctx a cs [s] hS hcs (goodComps_single s hgs)
  have hksome : (finalLookup (crawlAlbum ctx a (pathOfComps cs))
      (pathOfComps (cs ++ [s]))).isSome = true := by
    rw [finalLookup_isSome_iff, crawl_keys ctx a cs hS hcs]
    exact List.mem_map_of_mem _ hmem
  obtain ⟨v, hv⟩ := Option.isSome_iff_exists.mp hksome
  refine ⟨v, hv, ?_⟩
  have hvm : v ∈ entitiesAtRel ctx a [s] (pathOfComps (cs ++ [s])) :=
    List.mem_of_getLast?_eq_some (hlook.symm.trans hv)
  have htl := entitiesAtRel_title ctx a [s] _ (List.cons_ne_nil s []) v hvm
  exact (Option.some.inj htl).symm

/-- Claim C10: when exactly two siblings of a crawled album share a title,
the album's recorded child paths contain the joined shared path twice, the
later-crawled of the two children is the entity that survives in the index
under that path, and listing the album yields the shared name twice, both
entries typed by the surviving child's kind.  (Stated for a simple tree and
a crawl base of good components; the two sharers are given by a positional
decomposition of the children list.) -/
theorem claim_C10_duplicate_titles (ctx : Ctx) (a : AlbumJson)
    (cs : List (List Char)) (t : List Char) (ci cj : AlbumJson ⊕ PhotoJson)
    (pre mid post : List (AlbumJson ⊕ PhotoJson))
    (hS : SimpleTree a = true) (hcs : goodComps cs)
    (hsplit : childrenOf a = pre ++ ci :: (mid ++ cj :: post))
    (hti : childTitle ci = t) (htj : childTitle cj = t)
    (hothers : ∀ c, c ∈ pre ∨ c ∈ mid ∨ c ∈ post → childTitle c ≠ t) :
    finalLookup (crawlAlbum ctx a (pathOfComps cs)) (pathOfComps cs) =
      some (Entity.album (mkAlbumData ctx a (pathOfComps cs))) ∧
    (mkAlbumData ctx a (pathOfComps cs)).childrenPath.count
        (joinNorm (pathOfComps cs) t) = 2 ∧
    finalLookup (crawlAlbum ctx a (pathOfComps cs))
        (joinNorm (pathOfComps cs) t) =
      some (childEntity ctx (pathOfComps cs) cj) ∧
    ∃ es, fsReaddir (finalLookup (crawlAlbum ctx a (pathOfComps cs)))
        (pathOfComps cs) = .ok es ∧
      es.count (t, childKind cj) = 2 := by
  have hnil : goodComps ([] : List (List Char)) :=
    fun x hx => absurd hx (List.not_mem_nil x)
  have hcimem : ci ∈ childrenOf a := by
    rw [hsplit]
    exact List.mem_append_right _ (List.mem_cons_self _ _)
  have hcjmem : cj ∈ childrenOf a := by
    rw [hsplit]
    refine List.mem_append_right _ (List.mem_cons_of_mem _ ?_)
    exact List.mem_append_right _ (List.mem_cons_self _ _)
  have hgt : goodTitle t := hti ▸ childrenOf_good a hS ci hcimem
  have hK : joinNorm (pathOfComps cs) t = pathOfComps (cs ++ [t]) :=
    joinNorm_good cs t hcs hgt
  have hgood_child : ∀ c ∈ childrenOf a, goodTitle (childTitle c) :=
    childrenOf_good a hS
  -- Part 1: the album itself survives under its own path.
  have h1 : finalLookup (crawlAlbum ctx a (pathOfComps cs)) (pathOfComps cs) =
      some (Entity.album (mkAlbumData ctx a (pathOfComps cs))) := by
    have h := finalLookup_crawl ctx a cs [] hS hcs hnil
    rw [List.append_nil] at h
    rw [h, entitiesAtRel]
    rfl
  -- The survivor under the shared key is the later sharer.
  have hfilter : (childrenOf a).filter (fun ch => childTitle ch = t) = [ci, cj] := by
    rw [hsplit, List.filter_append, List.filter_cons, List.filter_append,
      List.filter_cons]
    have hpre0 : pre.filter (fun ch => childTitle ch = t) = [] :=
      List.filter_eq_nil_iff.mpr
        (fun c hc hdec => hothers c (Or.inl hc) (of_decide_eq_true hdec))
    have hmid0 : mid.filter (fun ch => childTitle ch = t) = [] :=
      List.filter_eq_nil_iff.mpr
        (fun c hc hdec => hothers c (Or.inr (Or.inl hc)) (of_decide_eq_true hdec))
    have hpost0 : post.filter (fun ch => childTitle ch = t) = [] :=
      List.filter_eq_nil_iff.mpr
        (fun c hc hdec => hothers c (Or.inr (Or.inr hc)) (of_decide_eq_true hdec))
    rw [hpre0, hmid0, hpost0, if_pos (decide_eq_true hti), if_pos (decide_eq_true htj)]
    rfl
  have h3 : finalLookup (crawlAlbum ctx a (pathOfComps cs))
      (joinNorm (pathOfComps cs) t) = some (childEntity ctx (pathOfComps cs) cj) := by
    rw [hK]
    have h := finalLookup_crawl ctx a cs [t] hS hcs (goodComps_single t hgt)
    rw [h]
    cases a with
    | mk i0 t0 c0 u0 subs photos =>
      rw [entitiesAtRel_top ctx i0 t0 c0 u0 subs photos t (pathOfComps (cs ++ [t]))]
      rw [hfilter]
      show some (topEntity ctx (pathOfComps (cs ++ [t])) cj) = _
      rw [← hK, topEntity_eq_childEntity ctx (pathOfComps cs) t cj htj]
  -- Part 2: the shared path is recorded twice.
  have hchp : (mkAlbumData ctx a (pathOfComps cs)).childrenPath =
      (childrenOf a).map (fun ch => joinNorm (pathOfComps cs) (childTitle ch)) :=
    childrenPaths_eq a (pathOfComps cs)
  have hnotK : ∀ c, c ∈ pre ∨ c ∈ mid ∨ c ∈ post →
      joinNorm (pathOfComps cs) (childTitle c) ≠ joinNorm (pathOfComps cs) t := by
    intro c hc hEq
    have hcmem : c ∈ childrenOf a := by
      rw [hsplit]
      rcases hc with h | h | h
      · exact List.mem_append_left _ h
      · exact List.mem_append_right _ (List.mem_cons_of_mem _
          (List.mem_append_left _ h))
      · exact List.mem_append_right _ (List.mem_cons_of_mem _
          (List.mem_append_right _ (List.mem_cons_of_mem _ h)))
    have hgc := hgood_child c hcmem
    rw [hK, joinNorm_good cs (childTitle c) hcs hgc] at hEq
    have := pathOfComps_inj _ _
      (goodComps_append cs [childTitle c] hcs (goodComps_single _ hgc))
      (goodComps_append cs [t] hcs (goodComps_single t hgt)) hEq
    have h2 := List.append_cancel_left this
    exact hothers c hc (List.cons.inj h2).1
  have hcount0 : ∀ l : List (AlbumJson ⊕ PhotoJson),
      (∀ c ∈ l, c ∈ pre ∨ c ∈ mid ∨ c ∈ post) →
      (l.map (fun ch => joinNorm (pathOfComps cs) (childTitle ch))).count
        (joinNorm (pathOfComps cs) t) = 0 := by
    intro l hl
    rw [List.count_eq_zero]
    intro hmemK
    obtain ⟨c, hc, hcK⟩ := List.mem_map.mp hmemK
    exact hnotK c (hl c hc) hcK
  have h2 : (mkAlbumData ctx a (pathOfComps cs)).childrenPath.count
      (joinNorm (pathOfComps cs) t) = 2 := by
    rw [hchp, hsplit, List.map_append, List.map_cons, List.map_append, List.map_cons]
    rw [List.count_append, List.count_cons, List.count_append, List.count_cons]
    rw [hcount0 pre (fun c hc => Or.inl hc), hcount0 mid (fun c hc => Or.inr (Or.inl hc)),
      hcount0 post (fun c hc => Or.inr (Or.inr hc))]
    rw [hti, htj]
    simp
  refine ⟨h1, h2, h3, ?_⟩
  -- Part 4: the listing yields the shared entry twice.
  have hallsome : ∀ cp ∈ (mkAlbumData ctx a (pathOfComps cs)).childrenPath,
      ((finalLookup (crawlAlbum ctx a (pathOfComps cs))) cp).isSome = true := by
    intro cp hcp
    rw [hchp] at hcp
    obtain ⟨c, hc, hcp'⟩ := List.mem_map.mp hcp
    obtain ⟨v, hv, -⟩ := finalLookup_child_title ctx a cs (childTitle c) hS hcs
      (hgood_child c hc) (child_mem_relPaths a c hc)
    rw [← hcp']
    rw [hv]
    rfl
  refine ⟨(mkAlbumData ctx a (pathOfComps cs)).childrenPath.map
    (direntAt (finalLookup (crawlAlbum ctx a (pathOfComps cs)))), ?_, ?_⟩
  · unfold fsReaddir
    rw [h1]
    exact readdirEntries_map _ _ hallsome
  · rw [hchp, hsplit]
    have hdirK : direntAt (finalLookup (crawlAlbum ctx a (pathOfComps cs)))
        (joinNorm (pathOfComps cs) t) = (t, childKind cj) := by
      unfold direntAt
      rw [h3]
      exact direntOf_childEntity ctx (pathOfComps cs) t cj htj
    have hcnt0 : ∀ l : List (AlbumJson ⊕ PhotoJson),
        (∀ c ∈ l, c ∈ pre ∨ c ∈ mid ∨ c ∈ post) →
        (l.map ((direntAt (finalLookup (crawlAlbum ctx a (pathOfComps cs)))) ∘
          (fun ch => joinNorm (pathOfComps cs) (childTitle ch)))).count
          (t, childKind cj) = 0 := by
      intro l hl
      rw [List.count_eq_zero]
      intro hmemK
      obtain ⟨c, hc, hcK⟩ := List.mem_map.mp hmemK
      have hcmem : c ∈ childrenOf a := by
        rw [hsplit]
        rcases hl c hc with h | h | h
        · exact List.mem_append_left _ h
        · exact List.mem_append_right _ (List.mem_cons_of_mem _
            (List.mem_append_left _ h))
        · exact List.mem_append_right _ (List.mem_cons_of_mem _
            (List.mem_append_right _ (List.mem_cons_of_mem _ h)))
      obtain ⟨v, hv, hvt⟩ := finalLookup_child_title ctx a cs (childTitle c) hS hcs
        (hgood_child c hcmem) (child_mem_relPaths a c hcmem)
      have hda : direntAt (finalLookup (crawlAlbum ctx a (pathOfComps cs)))
          (joinNorm (pathOfComps cs) (childTitle c)) =
          (v.title, if v.isAlbum then S_IFDIR else S_IFREG) := by
        unfold direntAt
        rw [hv]
        rfl
      simp only [Function.comp_apply] at hcK
      rw [hda] at hcK
      have hfst : v.title = t := congrArg Prod.fst hcK
      rw [hvt] at hfst
      exact hothers c (hl c hc) hfst
    simp only [List.map_append, List.map_cons, List.map_map, List.count_append,
      List.count_cons, Function.comp_apply, hti, htj]
    rw [hcnt0 pre (fun c hc => Or.inl hc), hcnt0 mid (fun c hc => Or.inr (Or.inl hc)),
      hcnt0 post (fun c hc => Or.inr (Or.inr hc)), hdirK]
    simp

/-- Witness for claim C10: in the parent whose subalbum and photo are both
titled `c`, the shared path `/c` is recorded twice and the photo — crawled
after the subalbum — survives in the index. -/
theorem claim_C10_witness :
    (mkAlbumData ctxD treeC10 (pathOfComps [])).childrenPath.count
        (joinNorm (pathOfComps []) ['c']) = 2 ∧
    finalLookup (crawlAlbum ctxD treeC10 (pathOfComps []))
        (joinNorm (pathOfComps []) ['c']) =
      some (childEntity ctxD (pathOfComps []) (Sum.inr phC)) :=
  have h := claim_C10_duplicate_titles ctxD treeC10 [] ['c']
    (Sum.inl (.mk 5 ['c'] 0 0 [] [])) (Sum.inr phC) [] [] []
    (by decide) (fun x hx => absurd hx (List.not_mem_nil x)) rfl rfl rfl
    (fun c hc => by rcases hc with h | h | h <;> exact absurd h (List.not_mem_nil c))
  ⟨h.2.1, h.2.2.1⟩

/-- Witness for claim C3 at the concrete write-only flag. -/
theorem claim_C3_witness :
    fsOpen objectsAlb ['/'] 1 = .error .eacces ∧
    fsOpen objectsAlb ['/'] 1 ≠ .error .eisdir :=
  ⟨claim_C3_open_album_write_eacces.1, claim_C3_open_album_write_eacces.2.2 1⟩
